import Mathlib

/-!
Verification of the process-scheduling engines of this repository
(file Process_Scheduling.py): FCFS, non-preemptive SJF, Round Robin,
and preemptive priority scheduling, together with their timeline
(Gantt) recording and metrics aggregation.

The Python code is shallowly embedded: each scheduling function becomes
a Lean function over explicit state; the integer simulation clock is
modelled with Int (Python integers); the floating-point averages are
modelled exactly with Rat (all divisions arising here are exact);
Python exceptions (ZeroDivisionError from an average over an empty run,
ValueError from max or min over an empty sequence) become an Except
error value.  Python dicts keyed by process name become a total
function String to record plus an explicit insertion-ordered key list,
since dict iteration order (insertion order, later assignment keeping
the original position) is observable in the source.
-/

namespace Sched

/-- A process record for FCFS, SJF and Round Robin:
tuple (name, arrival_time, burst_time) in the source. -/
structure Proc3 where
  name : String
  arrival : Int
  burst : Int
deriving DecidableEq, Repr

/-- A process record for preemptive priority scheduling:
tuple (name, arrival_time, burst_time, priority) in the source. -/
structure Proc4 where
  name : String
  arrival : Int
  burst : Int
  priority : Int
deriving DecidableEq, Repr

/-- One Gantt-chart / timeline entry (subject, start, end):
the subject is a process name or the sentinel IDLE. -/
abbrev GEntry := String × Int × Int

/-- One output row of FCFS and SJF:
(name, arrival, burst, completion, waiting, turnaround). -/
abbrev Row6 := String × Int × Int × Int × Int × Int

/-- The error outcomes the Python functions can raise:
ZeroDivisionError (average over zero processes) and ValueError
(max or min over an empty sequence). -/
inductive SimErr where
  | divByZero : SimErr
  | emptySeq : SimErr
deriving DecidableEq, Repr

deriving instance DecidableEq for Except

/-- Comparison by arrival time, the key function lambda x: x[1] used by
list.sort and sorted in the source. -/
def arrLE (a b : Proc3) : Prop := a.arrival ≤ b.arrival

instance : DecidableRel arrLE := fun a b => inferInstanceAs (Decidable (a.arrival ≤ b.arrival))

instance : IsTotal Proc3 arrLE := ⟨fun a b => Int.le_total a.arrival b.arrival⟩

instance : IsTrans Proc3 arrLE := ⟨fun _ _ _ h h2 => le_trans h h2⟩

/-- Python list.sort(key=lambda x: x[1]) and sorted(..., key=lambda x: x[1]):
a stable sort by arrival time.  Insertion sort with a non-strict
comparison is stable, matching the stable sort contract of CPython. -/
def sortByArrival (l : List Proc3) : List Proc3 := List.insertionSort arrLE l

/-- The timeline-tiling predicate: chainB a g b holds when the entries of
g, in the order emitted, are consecutive non-empty intervals starting
at a and ending at b (so they tile the interval from a to b with no
gap and no overlap, and each entry has start strictly below end). -/
def chainB (a : Int) : List GEntry → Int → Bool
  | [], b => a == b
  | (_, s, e) :: rest, b => s == a && decide (s < e) && chainB e rest b

/-- Valid input for the three-field engines: non-negative arrival,
strictly positive burst, and names that are unique identifiers
(the data-model contract of the specification). -/
def Valid3 (l : List Proc3) : Prop :=
  (∀ p ∈ l, 0 ≤ p.arrival ∧ 1 ≤ p.burst) ∧ (l.map Proc3.name).Nodup

instance : DecidablePred Valid3 := fun l => by
  unfold Valid3; infer_instance

/-- Valid input for the priority engine. -/
def Valid4 (l : List Proc4) : Prop :=
  (∀ p ∈ l, 0 ≤ p.arrival ∧ 1 ≤ p.burst) ∧ (l.map Proc4.name).Nodup

instance : DecidablePred Valid4 := fun l => by
  unfold Valid4; infer_instance

/-! ## FCFS (simulate_fcfs, lines 62 to 97)

The source sorts the list passed by the caller in place by arrival time, then
dispatches in that order: start = max(completion_time, arrival),
completion = start + burst, accumulating rows, totals and the Gantt
chart; it never emits IDLE entries.  Finally it divides the totals by
the number of processes, which raises ZeroDivisionError on an empty
list. -/

/-- The accumulated state of the FCFS dispatch loop. -/
structure FcfsAcc where
  ct : Int
  totalWait : Int
  totalTurn : Int
  rows : List Row6
  gantt : List GEntry
deriving DecidableEq, Repr

/-- One iteration of the FCFS for-loop over the sorted process list. -/
def fcfsStep (acc : FcfsAcc) (p : Proc3) : FcfsAcc :=
  let start := max acc.ct p.arrival
  let waiting := start - p.arrival
  let completion := start + p.burst
  let turnaround := completion - p.arrival
  { ct := completion
    totalWait := acc.totalWait + waiting
    totalTurn := acc.totalTurn + turnaround
    rows := acc.rows ++ [(p.name, p.arrival, p.burst, completion, waiting, turnaround)]
    gantt := acc.gantt ++ [(p.name, start, completion)] }

/-- The whole FCFS dispatch loop, fed with the sorted list. -/
def fcfsLoop (l : List Proc3) : FcfsAcc :=
  l.foldl fcfsStep ⟨0, 0, 0, [], []⟩

/-- The result of a successful FCFS run. -/
structure FcfsResult where
  rows : List Row6
  gantt : List GEntry
  avgWait : ℚ
  avgTurn : ℚ
deriving DecidableEq, Repr

/-- simulate_fcfs: sort by arrival (in place in the source), run the
dispatch loop, then compute the averages; the division raises
ZeroDivisionError when the list is empty. -/
def fcfs (l : List Proc3) : Except SimErr FcfsResult :=
  let acc := fcfsLoop (sortByArrival l)
  if l.length = 0 then .error .divByZero
  else .ok { rows := acc.rows
             gantt := acc.gantt
             avgWait := (acc.totalWait : ℚ) / (l.length : ℚ)
             avgTurn := (acc.totalTurn : ℚ) / (l.length : ℚ) }

/-- The list passed by the caller after simulate_fcfs returns: the source sorts the
argument list in place at line 65, so the caller observes it sorted. -/
def fcfsAfter (l : List Proc3) : List Proc3 := sortByArrival l

/-! ## Non-preemptive SJF (simulate_sjf, lines 100 to 160)

The source first sorts the list passed by the caller in place by arrival time
(line 103), then builds a working list [Name, Arrival, Burst,
is_completed] in that order.  The event loop: if no incomplete job has
arrived, jump to the minimum arrival among incomplete jobs and emit an
IDLE entry; otherwise stable-sort the available jobs by burst and run
the first one (so burst ties go to the earliest entry of the
arrival-sorted working list), mark the first incomplete entry with its
name completed, and advance the clock to its completion. -/

/-- A working-list entry of simulate_sjf. -/
structure SjfJob where
  name : String
  arrival : Int
  burst : Int
  completed : Bool
deriving DecidableEq, Repr

/-- The mutable state of the SJF event loop. -/
structure SjfSt where
  working : List SjfJob
  time : Int
  totalWait : Int
  totalTurn : Int
  rows : List Row6
  gantt : List GEntry
deriving DecidableEq, Repr

/-- The list comprehension selecting available jobs: arrived and not
completed, in working-list order. -/
def availableJobs (st : SjfSt) : List SjfJob :=
  st.working.filter (fun j => j.arrival ≤ st.time && !j.completed)

/-- The incomplete jobs, in working-list order. -/
def incompleteJobs (st : SjfSt) : List SjfJob :=
  st.working.filter (fun j => !j.completed)

/-- available_jobs.sort(key=lambda x: x[2]) followed by taking element 0:
since Python sort is stable this is the first element of minimal burst. -/
def minBurstFirst (a : SjfJob) (as : List SjfJob) : SjfJob :=
  as.foldl (fun m x => if x.burst < m.burst then x else m) a

/-- Mark the first incomplete working-list entry with the given name
completed, exactly as the for-loop with break at lines 140 to 143. -/
def markDone (n : String) : List SjfJob → List SjfJob
  | [] => []
  | j :: js =>
      if j.name = n && !j.completed then { j with completed := true } :: js
      else j :: markDone n js

/-- One iteration of the SJF while-loop: either an IDLE jump to the next
arrival among incomplete jobs, or a dispatch of the selected job. -/
def sjfStep (st : SjfSt) : SjfSt :=
  match availableJobs st with
  | [] =>
      match incompleteJobs st with
      | [] => st
      | j :: js =>
          let na := js.foldl (fun m x => min m x.arrival) j.arrival
          { st with gantt := st.gantt ++ [("IDLE", st.time, na)], time := na }
  | a :: as =>
      let sel := minBurstFirst a as
      let start := st.time
      let completion := start + sel.burst
      let waiting := start - sel.arrival
      let turnaround := completion - sel.arrival
      { working := markDone sel.name st.working
        time := completion
        totalWait := st.totalWait + waiting
        totalTurn := st.totalTurn + turnaround
        rows := st.rows ++ [(sel.name, sel.arrival, sel.burst, completion, waiting, turnaround)]
        gantt := st.gantt ++ [(sel.name, start, completion)] }

/-- The SJF while-loop, guarded by completed_processes < num_processes,
run with explicit fuel (each iteration either completes a job or is an
idle jump immediately followed by a dispatch, so 2n + 1 fuel always
suffices for the loop of the source). -/
def runSjf : Nat → SjfSt → SjfSt
  | 0, st => st
  | fuel + 1, st =>
      if incompleteJobs st = [] then st else runSjf fuel (sjfStep st)

/-- The initial SJF state: the working list is built from the
arrival-sorted process list with completed = False. -/
def initSjf (l : List Proc3) : SjfSt :=
  { working := (sortByArrival l).map (fun p => ⟨p.name, p.arrival, p.burst, false⟩)
    time := 0
    totalWait := 0
    totalTurn := 0
    rows := []
    gantt := [] }

/-- Fuel that always suffices for the SJF loop. -/
def sjfFuel (l : List Proc3) : Nat := 2 * l.length + 1

/-- The result of a successful SJF run. -/
structure SjfResult where
  rows : List Row6
  gantt : List GEntry
  avgWait : ℚ
  avgTurn : ℚ
deriving DecidableEq, Repr

/-- simulate_sjf: run the event loop, then compute the averages, which
raises ZeroDivisionError on an empty list. -/
def sjfFull (l : List Proc3) : Except SimErr SjfResult :=
  let st := runSjf (sjfFuel l) (initSjf l)
  if l.length = 0 then .error .divByZero
  else .ok { rows := st.rows
             gantt := st.gantt
             avgWait := (st.totalWait : ℚ) / (l.length : ℚ)
             avgTurn := (st.totalTurn : ℚ) / (l.length : ℚ) }

/-- The list passed by the caller after simulate_sjf returns: the source sorts the
argument list in place at line 103. -/
def sjfAfter (l : List Proc3) : List Proc3 := sortByArrival l

/-! ## Round Robin (simulate_round_robin, lines 163 to 236)

The source keeps per-process bookkeeping in a dict keyed by process
name (a dict comprehension over the input list, so a later record with
the same name overwrites the fields of an earlier one while the key
keeps its first-insertion position), a FIFO ready deque of names, and
an index into the arrival-sorted copy of the input (sorted(...) does
not mutate the list passed by the caller).  Each loop iteration admits newly
arrived processes, then either dispatches the queue front for
min(quantum, remaining), admits the processes that arrived during that
slice, and finally re-queues the front if unfinished, or, with an
empty queue, jumps to the next arrival emitting an IDLE entry. -/

/-- The per-name bookkeeping record of simulate_round_robin; ct models
the completion_time key, absent (none) until the process completes. -/
structure RRDet where
  arrival : Int
  burst : Int
  remaining : Int
  startTime : Int
  wait : Int
  turn : Int
  ct : Option Int
  completed : Bool
deriving DecidableEq, Repr

/-- The dict value created for one input record. -/
def initRRDet (p : Proc3) : RRDet :=
  ⟨p.arrival, p.burst, p.burst, -1, 0, 0, none, false⟩

/-- The insertion-ordered key list of a Python dict built over the input
records: first occurrence of each name, in input order. -/
def keysOf3 (l : List Proc3) : List String :=
  l.foldl (fun ks p => if p.name ∈ ks then ks else ks ++ [p.name]) []

/-- The dict comprehension at line 167 as a total lookup function:
iterating the records, a later record with the same name overwrites
the fields of an earlier one. -/
def buildRRDet (l : List Proc3) : String → RRDet :=
  l.foldl (fun m p => Function.update m p.name (initRRDet p)) (fun _ => initRRDet ⟨"", 0, 0⟩)

/-- The mutable state of the Round Robin loop: the bookkeeping dict, the
ready queue of names, the not-yet-admitted suffix of the arrival-sorted
record list (process_index in the source), the clock and the chart. -/
structure RRSt where
  details : String → RRDet
  queue : List String
  pending : List Proc3
  time : Int
  gantt : List GEntry

/-- The admission while-loop (lines 178 to 180 and 198 to 200): move
every leading pending record with arrival at most t to the back of the
ready queue, in arrival order. -/
def enqueueArrivals : List Proc3 → Int → List String → List String × List Proc3
  | [], _, q => (q, [])
  | p :: ps, t, q =>
      if p.arrival ≤ t then enqueueArrivals ps t (q ++ [p.name]) else (q, p :: ps)

/-- One iteration of the Round Robin while-loop. -/
def rrStep (quantum : Int) (st : RRSt) : RRSt :=
  let adm := enqueueArrivals st.pending st.time st.queue
  match adm.1 with
  | front :: rest =>
      let d := st.details front
      let slice := min quantum d.remaining
      let started := if d.startTime == -1 then st.time else d.startTime
      let t2 := st.time + slice
      let rem2 := d.remaining - slice
      let adm2 := enqueueArrivals adm.2 t2 rest
      let d2 :=
        if rem2 == 0 then
          { d with remaining := rem2, startTime := started, completed := true,
                   turn := t2 - d.arrival, wait := (t2 - d.arrival) - d.burst, ct := some t2 }
        else { d with remaining := rem2, startTime := started }
      { details := Function.update st.details front d2
        queue := if rem2 == 0 then adm2.1 else adm2.1 ++ [front]
        pending := adm2.2
        time := t2
        gantt := st.gantt ++ [(front, st.time, t2)] }
  | [] =>
      match adm.2 with
      | [] => { st with queue := [], pending := [] }
      | p :: ps =>
          { st with queue := [], pending := p :: ps,
                    gantt := st.gantt ++ [("IDLE", st.time, p.arrival)], time := p.arrival }

/-- The Round Robin while-loop (guard: unadmitted records remain or the
ready queue is non-empty), run with explicit fuel; for a valid input
and a positive quantum the fuel below always suffices, while for
quantum at most 0 the loop of the source never terminates and the fuel
simply runs out. -/
def runRR (quantum : Int) : Nat → RRSt → RRSt
  | 0, st => st
  | fuel + 1, st =>
      if st.pending = [] ∧ st.queue = [] then st
      else runRR quantum fuel (rrStep quantum st)

/-- The initial Round Robin state. -/
def initRR (l : List Proc3) : RRSt :=
  { details := buildRRDet l
    queue := []
    pending := sortByArrival l
    time := 0
    gantt := [] }

/-- Fuel sufficient for the Round Robin loop on valid input. -/
def rrFuel (l : List Proc3) : Nat :=
  (l.map (fun p => p.burst.toNat)).sum + 2 * l.length + 2

/-- One output row of Round Robin: (name, arrival, burst,
completion_time if completed, waiting, turnaround), in dict key order. -/
abbrev RRRow := String × Int × Int × Option Int × Int × Int

/-- The result of a successful Round Robin run. -/
structure RRResult where
  rows : List RRRow
  gantt : List GEntry
  avgWait : ℚ
  avgTurn : ℚ
deriving DecidableEq, Repr

/-- The integer-valued observation of a finished Round Robin run: the
per-name rows in dict key order, the chart, and the waiting and
turnaround totals summed over the dict values (one per distinct name). -/
def rrObs (l : List Proc3) (quantum : Int) : List RRRow × List GEntry × Int × Int :=
  let st := runRR quantum (rrFuel l) (initRR l)
  let ks := keysOf3 l
  (ks.map (fun n =>
     let d := st.details n
     (n, d.arrival, d.burst, d.ct, d.wait, d.turn)),
   st.gantt,
   (ks.map (fun n => (st.details n).wait)).sum,
   (ks.map (fun n => (st.details n).turn)).sum)

/-- simulate_round_robin: run the loop, sum waiting and turnaround over
the dict values (one per distinct name) and divide by the length of
the input list, raising ZeroDivisionError on an empty list. -/
def rrFull (l : List Proc3) (quantum : Int) : Except SimErr RRResult :=
  if l.length = 0 then .error .divByZero
  else .ok { rows := (rrObs l quantum).1
             gantt := (rrObs l quantum).2.1
             avgWait := ((rrObs l quantum).2.2.1 : ℚ) / (l.length : ℚ)
             avgTurn := ((rrObs l quantum).2.2.2 : ℚ) / (l.length : ℚ) }

/-- The list passed by the caller after simulate_round_robin returns: the source
only reads the argument (sorted makes a copy at line 168), so the list
is unchanged. -/
def rrAfter (l : List Proc3) : List Proc3 := l

/-! ## Preemptive priority (simulate_priority_preemptive, lines 239 to 334)

The source keeps a dict keyed by name (later duplicate records
overwrite earlier fields), computes max_time = max arrival + total
burst + 1 from the input list (max over an empty sequence raises
ValueError on an empty input), and loops while current_time < max_time
and some process is incomplete.  Each iteration: collect the available
names in dict order; if none, jump to the next arrival (or advance by
one past max_arrival) emitting an IDLE entry; otherwise pick the first
name of minimal priority, set the event time to the minimum of
current_time + remaining and every arrival of a strictly
higher-priority not-yet-arrived process, run the slice, and complete
the process if its remaining time reached zero.  After the loop it
unconditionally computes a metrics row for every dict entry from
finish_time (still -1 for an uncompleted process) and divides the
totals by the input length. -/

/-- The per-name bookkeeping record of simulate_priority_preemptive. -/
structure PriDet where
  arrival : Int
  burst : Int
  priority : Int
  remaining : Int
  completed : Bool
  startTime : Int
  finishTime : Int
deriving DecidableEq, Repr

/-- The dict value created for one input record. -/
def initPriDet (p : Proc4) : PriDet :=
  ⟨p.arrival, p.burst, p.priority, p.burst, false, -1, -1⟩

/-- The insertion-ordered key list of the priority dict. -/
def keysOf4 (l : List Proc4) : List String :=
  l.foldl (fun ks p => if p.name ∈ ks then ks else ks ++ [p.name]) []

/-- The dict comprehension at lines 251 to 252 as a total lookup
function; a later record with the same name overwrites the fields. -/
def buildPriDet (l : List Proc4) : String → PriDet :=
  l.foldl (fun m p => Function.update m p.name (initPriDet p))
    (fun _ => initPriDet ⟨"", 0, 0, 0⟩)

/-- max(p[1] for p in processes_data) over a non-empty list. -/
def maxArrival : List Proc4 → Int
  | [] => 0
  | p :: ps => ps.foldl (fun m x => max m x.arrival) p.arrival

/-- sum(p[2] for p in processes_data). -/
def totalBurst (l : List Proc4) : Int := (l.map Proc4.burst).sum

/-- The mutable state of the priority event loop; maxArr and maxTime are
the loop bounds precomputed from the input list at lines 257 to 259. -/
structure PriSt where
  details : String → PriDet
  ks : List String
  time : Int
  gantt : List GEntry
  maxArr : Int
  maxTime : Int

/-- The list comprehension at lines 264 to 265: names of arrived,
incomplete processes in dict order. -/
def availNames (st : PriSt) : List String :=
  st.ks.filter (fun n => (st.details n).arrival ≤ st.time && !(st.details n).completed)

/-- sum(1 for d in details.values() if not d.completed). -/
def countIncomplete (st : PriSt) : Nat :=
  (st.ks.filter (fun n => !(st.details n).completed)).length

/-- min(available, key=priority): Python min keeps the earliest element
among those of minimal priority value. -/
def selectPri (st : PriSt) (a : String) (as : List String) : String :=
  as.foldl (fun m n => if (st.details n).priority < (st.details m).priority then n else m) a

/-- The conditional-minimum fold pattern of the for-loop at lines 290 to
294: starting from an initial value, replace the accumulator by f n
whenever the guard holds and f n is strictly smaller. -/
def foldMinIf (p : String → Bool) (f : String → Int) (ks : List String) (i : Int) : Int :=
  ks.foldl (fun acc n => if p n ∧ f n < acc then f n else acc) i

/-- The next event time for the selected process: current_time +
remaining, lowered to the arrival of any not-yet-arrived process of
strictly smaller priority value. -/
def nextEventTime (st : PriSt) (sel : String) : Int :=
  foldMinIf
    (fun n => decide (st.time < (st.details n).arrival) &&
              decide ((st.details n).priority < (st.details sel).priority))
    (fun n => (st.details n).arrival)
    st.ks
    (st.time + (st.details sel).remaining)

/-- min(d.arrival for d in details.values() if d.arrival > current_time):
none models the ValueError raised on an empty sequence. -/
def nextArrAfter (st : PriSt) : Option Int :=
  match (st.ks.filter (fun n => st.time < (st.details n).arrival)).map
      (fun n => (st.details n).arrival) with
  | [] => none
  | a :: as => some (as.foldl min a)

/-- One iteration of the priority while-loop; none models an uncaught
ValueError from the idle-branch min. -/
def priStep (st : PriSt) : Option PriSt :=
  match availNames st with
  | [] =>
      if st.time < st.maxArr then
        match nextArrAfter st with
        | none => none
        | some na =>
            some { st with gantt := st.gantt ++ [("IDLE", st.time, na)], time := na }
      else some { st with time := st.time + 1 }
  | a :: as =>
      let sel := selectPri st a as
      let d := st.details sel
      let ev := nextEventTime st sel
      let slice := ev - st.time
      let started := if d.startTime == -1 then st.time else d.startTime
      let rem2 := d.remaining - slice
      let d2 :=
        if rem2 == 0 then
          { d with remaining := rem2, startTime := started, completed := true, finishTime := ev }
        else { d with remaining := rem2, startTime := started }
      some { st with details := Function.update st.details sel d2
                     time := ev
                     gantt := st.gantt ++ [(sel, st.time, ev)] }

/-- The priority while-loop with guard current_time < max_time and some
process incomplete, run with explicit fuel. -/
def runPri : Nat → PriSt → Option PriSt
  | 0, st => some st
  | fuel + 1, st =>
      if st.time < st.maxTime ∧ 0 < countIncomplete st then
        match priStep st with
        | none => none
        | some st2 => runPri fuel st2
      else some st

/-- The initial priority state; meaningful only for a non-empty input,
where max over the arrivals is defined. -/
def initPri (l : List Proc4) : PriSt :=
  { details := buildPriDet l
    ks := keysOf4 l
    time := 0
    gantt := []
    maxArr := maxArrival l
    maxTime := maxArrival l + totalBurst l + 1 }

/-- Fuel sufficient for the priority loop (the loop makes at most
max_time time-advancing iterations plus one completion per process,
each able to rewind the clock by at most the total absolute burst). -/
def priFuel (l : List Proc4) : Nat :=
  l.length + (maxArrival l + totalBurst l + 1).toNat +
    l.length * (l.map (fun p => p.burst.natAbs)).sum + 4

/-- One output row of the priority engine: name, arrival, burst,
priority, completion, waiting and turnaround, in dict key order. -/
structure PriRow where
  name : String
  arrival : Int
  burst : Int
  priority : Int
  ct : Int
  wait : Int
  turn : Int
deriving DecidableEq, Repr

/-- The result of a priority run that did not raise. -/
structure PriResult where
  rows : List PriRow
  gantt : List GEntry
  avgWait : ℚ
  avgTurn : ℚ
deriving DecidableEq, Repr

/-- The metrics rows after the loop (lines 316 to 321): one row per
dict entry, in key order, computed from finish_time whether or not the
process completed. -/
def mkPriRows (l : List Proc4) (st : PriSt) : List PriRow :=
  (keysOf4 l).map (fun n =>
    let d := st.details n
    ⟨n, d.arrival, d.burst, d.priority, d.finishTime,
      (d.finishTime - d.arrival) - d.burst, d.finishTime - d.arrival⟩)

/-- The integer-valued observation of a priority run: the metrics rows,
the chart and the waiting and turnaround totals over the dict entries;
none models an uncaught ValueError from inside the loop. -/
def priObs (l : List Proc4) : Option (List PriRow × List GEntry × Int × Int) :=
  match runPri (priFuel l) (initPri l) with
  | none => none
  | some st =>
      some (mkPriRows l st, st.gantt,
        ((keysOf4 l).map (fun n =>
          ((st.details n).finishTime - (st.details n).arrival) - (st.details n).burst)).sum,
        ((keysOf4 l).map (fun n => (st.details n).finishTime - (st.details n).arrival)).sum)

/-- simulate_priority_preemptive: on an empty list the max over the
arrivals raises ValueError before the loop; otherwise run the loop
and, whether or not every process completed, compute the metrics block
from the final state, dividing the totals by the input length. -/
def priFull (l : List Proc4) : Except SimErr PriResult :=
  match l with
  | [] => .error .emptySeq
  | _ :: _ =>
      match priObs l with
      | none => .error .emptySeq
      | some ob =>
          .ok { rows := ob.1
                gantt := ob.2.1
                avgWait := (ob.2.2.1 : ℚ) / (l.length : ℚ)
                avgTurn := (ob.2.2.2 : ℚ) / (l.length : ℚ) }

/-- The list passed by the caller after simulate_priority_preemptive returns: the
source only reads the argument, so the list is unchanged. -/
def priAfter (l : List Proc4) : List Proc4 := l

/-! ## Concrete inputs and auxiliary definitions used by the theorems -/

/-- The test input of the main script for FCFS, SJF and Round Robin. -/
def testNP : List Proc3 := [⟨"P1", 0, 7⟩, ⟨"P2", 2, 4⟩, ⟨"P3", 4, 1⟩, ⟨"P4", 5, 4⟩]

/-- The test input of the main script for the priority engine. -/
def testWP : List Proc4 := [⟨"P1", 0, 7, 2⟩, ⟨"P2", 2, 4, 1⟩, ⟨"P3", 4, 1, 3⟩, ⟨"P4", 5, 4, 4⟩]

/-- A valid input on which two processes with equal burst times become
available at once while their arrival order differs from their input
order: X occupies the CPU until time 5, by which time both A (input
position 1, arrival 2) and B (input position 2, arrival 1) are
available with burst 3. -/
def sjfTieInput : List Proc3 := [⟨"X", 0, 5⟩, ⟨"A", 2, 3⟩, ⟨"B", 1, 3⟩]

/-- A valid one-process input whose process arrives after time 0. -/
def lateInput : List Proc3 := [⟨"P1", 5, 3⟩]

/-- An invalid input: negative arrival time and zero burst time. -/
def invalidInput : List Proc3 := [⟨"P1", -3, 0⟩]

/-- An input whose negative total burst makes the priority safety bound
max arrival + total burst + 1 equal to -4, so the event loop exits
immediately with both processes incomplete. -/
def boundInput : List Proc4 := [⟨"A", 0, 5, 1⟩, ⟨"B", 0, -10, 2⟩]

/-- An input with a duplicated process name. -/
def dupInput : List Proc3 := [⟨"P", 0, 2⟩, ⟨"P", 1, 3⟩]

/-- A two-process input given in reverse arrival order. -/
def swapInput : List Proc3 := [⟨"P2", 2, 4⟩, ⟨"P1", 0, 7⟩]

/-- A one-process input for exercising Round Robin with quantum 0. -/
def rrZeroInput : List Proc3 := [⟨"P", 0, 2⟩]

/-- The FCFS Gantt chart as a recurrence: each process of the sorted
list starts at the maximum of the previous completion time and its own
arrival and runs for its whole burst.  Related to fcfsLoop by a proved
lemma; used to state the per-index dispatch property of FCFS. -/
def fcfsChain : Int → List Proc3 → List GEntry
  | _, [] => []
  | ct, p :: ps =>
      let s := max ct p.arrival
      (p.name, s, s + p.burst) :: fcfsChain (s + p.burst) ps

/-- The end of the Gantt entry before position k, seen from a chart that
starts at completion time c: c itself for k = 0, otherwise the end
component of entry k - 1. -/
def prevEndAt (c : Int) (g : List GEntry) : Nat → Int
  | 0 => c
  | k + 1 => (g.getD k ("", 0, 0)).2.2

/-- The loop invariant of the Round Robin simulation used to prove the
timeline tiling: the chart emitted so far tiles the interval from 0 to
the current time; the ready queue holds distinct names, each with at
least one unit of remaining work; the pending records have distinct
names, are not yet queued, still carry their untouched initial
bookkeeping, and have positive bursts. -/
def RRInv (st : RRSt) : Prop :=
  chainB 0 st.gantt st.time = true ∧
  st.queue.Nodup ∧
  (∀ n ∈ st.queue, 1 ≤ (st.details n).remaining) ∧
  (st.pending.map Proc3.name).Nodup ∧
  (∀ p ∈ st.pending, p.name ∉ st.queue ∧ st.details p.name = initRRDet p ∧ 1 ≤ p.burst)

/-- The loop invariant of the priority simulation: the chart tiles the
interval from 0 to the current time, the key list and loop bounds are
the ones computed from the input, every incomplete process has at
least one unit of remaining work, and every bookkeeping arrival is at
most the maximal arrival. -/
def PriInv (l : List Proc4) (st : PriSt) : Prop :=
  chainB 0 st.gantt st.time = true ∧
  st.ks = keysOf4 l ∧
  st.maxArr = maxArrival l ∧
  (∀ n ∈ st.ks, (st.details n).completed = false → 1 ≤ (st.details n).remaining) ∧
  (∀ n ∈ st.ks, (st.details n).arrival ≤ st.maxArr)

/-! ## Evaluation lemmas

Rational division in Lean does not reduce inside the kernel (its
normalization goes through Nat.gcd), so concrete runs are evaluated in
two stages: decide settles the integer-valued part of a run and the
following lemmas assemble the final Except values, with norm_num
closing the rational arithmetic. -/

theorem fcfs_eval (l : List Proc3) (h : l.length ≠ 0) :
    fcfs l = Except.ok
      ⟨(fcfsLoop (sortByArrival l)).rows, (fcfsLoop (sortByArrival l)).gantt,
        ((fcfsLoop (sortByArrival l)).totalWait : ℚ) / (l.length : ℚ),
        ((fcfsLoop (sortByArrival l)).totalTurn : ℚ) / (l.length : ℚ)⟩ := by
  simp [fcfs, h]

theorem sjf_eval (l : List Proc3) (h : l.length ≠ 0) :
    sjfFull l = Except.ok
      ⟨(runSjf (sjfFuel l) (initSjf l)).rows, (runSjf (sjfFuel l) (initSjf l)).gantt,
        ((runSjf (sjfFuel l) (initSjf l)).totalWait : ℚ) / (l.length : ℚ),
        ((runSjf (sjfFuel l) (initSjf l)).totalTurn : ℚ) / (l.length : ℚ)⟩ := by
  simp [sjfFull, h]

theorem rr_eval (l : List Proc3) (q : Int) (h : l.length ≠ 0) :
    rrFull l q = Except.ok
      ⟨(rrObs l q).1, (rrObs l q).2.1,
        ((rrObs l q).2.2.1 : ℚ) / (l.length : ℚ),
        ((rrObs l q).2.2.2 : ℚ) / (l.length : ℚ)⟩ := by
  simp [rrFull, h]

theorem pri_eval (l : List Proc4) (ob : List PriRow × List GEntry × Int × Int)
    (hl : l ≠ []) (h : priObs l = some ob) :
    priFull l = Except.ok
      ⟨ob.1, ob.2.1, (ob.2.2.1 : ℚ) / (l.length : ℚ), (ob.2.2.2 : ℚ) / (l.length : ℚ)⟩ := by
  match l with
  | [] => exact absurd rfl hl
  | a :: l2 => simp [priFull, h]

/-! ## Helper lemmas about the shared primitives -/

theorem chainB_nil (a b : Int) : chainB a [] b = (a == b) := rfl

theorem chainB_append {a b e : Int} {g : List GEntry} (n : String)
    (h : chainB a g b = true) (hbe : b < e) :
    chainB a (g ++ [(n, b, e)]) e = true := by
  induction g generalizing a with
  | nil =>
      have ha : a = b := by simpa [chainB] using h
      subst ha
      simp [chainB, hbe]
  | cons x g ih =>
      obtain ⟨x1, x2, x3⟩ := x
      simp only [chainB, Bool.and_eq_true, beq_iff_eq, decide_eq_true_eq] at h
      simp only [List.cons_append, chainB, Bool.and_eq_true, beq_iff_eq, decide_eq_true_eq]
      exact ⟨⟨h.1.1, h.1.2⟩, ih h.2⟩

theorem foldMinIf_cons (p : String → Bool) (f : String → Int) (n : String)
    (ks : List String) (i : Int) :
    foldMinIf p f (n :: ks) i = foldMinIf p f ks (if p n ∧ f n < i then f n else i) := rfl

theorem foldMinIf_le_init (p : String → Bool) (f : String → Int) (ks : List String) :
    ∀ i : Int, foldMinIf p f ks i ≤ i := by
  induction ks with
  | nil => intro i; exact le_refl i
  | cons n ks ih =>
      intro i
      rw [foldMinIf_cons]
      refine le_trans (ih _) ?_
      split_ifs with h
      · exact le_of_lt h.2
      · exact le_refl i

theorem foldMinIf_le_of_mem (p : String → Bool) (f : String → Int) (ks : List String) :
    ∀ i : Int, ∀ n ∈ ks, p n = true → foldMinIf p f ks i ≤ f n := by
  induction ks with
  | nil => intro i n hn; exact absurd hn (List.not_mem_nil n)
  | cons m ks ih =>
      intro i n hn hp
      rcases List.mem_cons.mp hn with he | hm
      · subst he
        rw [foldMinIf_cons]
        have hi : (if p n ∧ f n < i then f n else i) ≤ f n := by
          split_ifs with h
          · exact le_refl _
          · push_neg at h
            exact h hp
        exact le_trans (foldMinIf_le_init p f ks _) hi
      · rw [foldMinIf_cons]
        exact ih _ n hm hp

theorem foldMinIf_cases (p : String → Bool) (f : String → Int) (ks : List String) :
    ∀ i : Int, foldMinIf p f ks i = i ∨
      ∃ n ∈ ks, p n = true ∧ foldMinIf p f ks i = f n := by
  induction ks with
  | nil => intro i; exact Or.inl rfl
  | cons m ks ih =>
      intro i
      rw [foldMinIf_cons]
      rcases ih (if p m ∧ f m < i then f m else i) with h | ⟨n, hn, hp, he⟩
      · by_cases hc : p m ∧ f m < i
        · refine Or.inr ⟨m, List.mem_cons_self m ks, hc.1, ?_⟩
          rw [if_pos hc] at h ⊢
          exact h
        · refine Or.inl ?_
          rw [if_neg hc] at h ⊢
          exact h
      · exact Or.inr ⟨n, List.mem_cons_of_mem m hn, hp, he⟩

/-! ## The priority loop cannot raise from inside

Whenever the loop body runs (some process is incomplete) and no process
is available, that incomplete process has not arrived yet, so the idle
branch minimum ranges over a non-empty sequence; hence the inner min
never raises and runPri always returns a state. -/

theorem priStep_isSome (st : PriSt) (h : 0 < countIncomplete st) :
    (priStep st).isSome = true := by
  match hA : availNames st with
  | a :: as => simp [priStep, hA]
  | [] =>
      by_cases hT : st.time < st.maxArr
      · obtain ⟨n, hn⟩ := List.exists_mem_of_length_pos h
        have hn2 := List.mem_filter.mp hn
        have hall := List.filter_eq_nil_iff.mp hA
        have harr : st.time < (st.details n).arrival := by
          by_contra hle
          push_neg at hle
          have h1 := hall n hn2.1
          simp only [Bool.and_eq_true, decide_eq_true_eq, not_and] at h1
          exact h1 hle hn2.2
        have hmem : n ∈ st.ks.filter (fun m => decide (st.time < (st.details m).arrival)) :=
          List.mem_filter.mpr ⟨hn2.1, by simpa using harr⟩
        match hF : (st.ks.filter (fun m => decide (st.time < (st.details m).arrival))).map
            (fun m => (st.details m).arrival) with
        | [] =>
            rw [List.map_eq_nil_iff] at hF
            rw [hF] at hmem
            exact absurd hmem (List.not_mem_nil n)
        | x :: xs =>
            simp [priStep, hA, hT, nextArrAfter, hF]
      · simp [priStep, hA, hT]

theorem runPri_isSome : ∀ (fuel : Nat) (st : PriSt), (runPri fuel st).isSome = true := by
  intro fuel
  induction fuel with
  | zero => intro st; rfl
  | succ f ih =>
      intro st
      by_cases h : st.time < st.maxTime ∧ 0 < countIncomplete st
      · obtain ⟨st2, h2⟩ := Option.isSome_iff_exists.mp (priStep_isSome st h.2)
        have h3 := ih st2
        simp [runPri, h, h2, h3]
      · simp [runPri, h]

theorem priObs_isSome (l : List Proc4) : (priObs l).isSome = true := by
  obtain ⟨st, hst⟩ := Option.isSome_iff_exists.mp (runPri_isSome (priFuel l) (initPri l))
  simp [priObs, hst]

/-! ## Counterexample theorems -/

/-- C3 counterexample.  On the valid input sjfTieInput the second
selection step of simulate_sjf happens at time 5 with both B (arrival
1, input position 2) and A (arrival 2, input position 1) available and
sharing the minimal burst time 3.  The claim predicts that A, the
earliest of the two in original input order, is selected; the engine
selects B, the earliest in the arrival-sorted working list, and the
resulting chart runs B from 5 to 8 and A only from 8 to 11.  The claim
is therefore false as stated: the tie-break is not original input
order. -/
theorem c3_counterexample :
    Valid3 sjfTieInput ∧
    (sjfStep (initSjf sjfTieInput)).time = 5 ∧
    availableJobs (sjfStep (initSjf sjfTieInput)) = [⟨"B", 1, 3, false⟩, ⟨"A", 2, 3, false⟩] ∧
    sjfTieInput.getD 1 ⟨"", 0, 0⟩ = ⟨"A", 2, 3⟩ ∧
    sjfTieInput.getD 2 ⟨"", 0, 0⟩ = ⟨"B", 1, 3⟩ ∧
    minBurstFirst ⟨"B", 1, 3, false⟩ [⟨"A", 2, 3, false⟩] = ⟨"B", 1, 3, false⟩ ∧
    (runSjf (sjfFuel sjfTieInput) (initSjf sjfTieInput)).gantt
      = [("X", 0, 5), ("B", 5, 8), ("A", 8, 11)] := by
  decide

/-- C4 counterexample.  On the input of the claim the FCFS engine
produces waiting times 0, 5, 7, 7 (not 0, 5, 8, 7) and average waiting
time 19/4 = 4.75 (not 5.00): P3 arrives at 4 and starts at 11, so its
waiting time is 7.  The completion times 7, 11, 12, 16 of the claim are
correct. -/
theorem c4_counterexample :
    fcfs testNP = Except.ok
      ⟨[("P1", 0, 7, 7, 0, 7), ("P2", 2, 4, 11, 5, 9),
        ("P3", 4, 1, 12, 7, 8), ("P4", 5, 4, 16, 7, 11)],
       [("P1", 0, 7), ("P2", 7, 11), ("P3", 11, 12), ("P4", 12, 16)], 19 / 4, 35 / 4⟩ ∧
    [(0 : Int), 5, 7, 7] ≠ [0, 5, 8, 7] ∧
    (19 : ℚ) / 4 ≠ 5 := by
  refine ⟨?_, by decide, by norm_num⟩
  have h1 : (fcfsLoop (sortByArrival testNP)).rows =
      [("P1", 0, 7, 7, 0, 7), ("P2", 2, 4, 11, 5, 9),
       ("P3", 4, 1, 12, 7, 8), ("P4", 5, 4, 16, 7, 11)] := by decide
  have h2 : (fcfsLoop (sortByArrival testNP)).gantt =
      [("P1", 0, 7), ("P2", 7, 11), ("P3", 11, 12), ("P4", 12, 16)] := by decide
  have h3 : (fcfsLoop (sortByArrival testNP)).totalWait = 19 := by decide
  have h4 : (fcfsLoop (sortByArrival testNP)).totalTurn = 35 := by decide
  rw [fcfs_eval testNP (by decide), h1, h2, h3, h4, show testNP.length = 4 from rfl]
  simp only [Except.ok.injEq, FcfsResult.mk.injEq]
  norm_num

/-- C5 counterexample.  On the valid non-empty input lateInput the FCFS
engine emits the single timeline entry (P1, 5, 8) and no IDLE entry:
sorted by start the timeline is itself, its last end is 8, and it does
not tile the interval from 0 to 8 (the interval from 0 to 5, during
which no process runs, is not represented).  The claim is therefore
false for the FCFS engine. -/
theorem c5_counterexample :
    Valid3 lateInput ∧ lateInput ≠ [] ∧
    fcfs lateInput = Except.ok ⟨[("P1", 5, 3, 8, 0, 3)], [("P1", 5, 8)], 0, 3⟩ ∧
    chainB 0 [("P1", 5, 8)] 8 = false ∧
    List.filter (fun e => e.1 == "IDLE") [(("P1" : String), (5 : Int), (8 : Int))] = [] := by
  refine ⟨by decide, by decide, ?_, by decide, by decide⟩
  have h1 : (fcfsLoop (sortByArrival lateInput)).rows = [("P1", 5, 3, 8, 0, 3)] := by decide
  have h2 : (fcfsLoop (sortByArrival lateInput)).gantt = [("P1", 5, 8)] := by decide
  have h3 : (fcfsLoop (sortByArrival lateInput)).totalWait = 0 := by decide
  have h4 : (fcfsLoop (sortByArrival lateInput)).totalTurn = 3 := by decide
  rw [fcfs_eval lateInput (by decide), h1, h2, h3, h4, show lateInput.length = 1 from rfl]
  simp only [Except.ok.injEq, FcfsResult.mk.injEq]
  norm_num

/-- C6 counterexample.  On the empty process list every engine fails
instead of returning an explicit empty-result indicator: FCFS, SJF and
Round Robin reach the average computation and divide the totals by
zero processes (ZeroDivisionError in the source), and the priority
engine fails even earlier, taking the maximum arrival of an empty
sequence (ValueError).  The claim is therefore false. -/
theorem c6_counterexample :
    fcfs [] = Except.error SimErr.divByZero ∧
    sjfFull [] = Except.error SimErr.divByZero ∧
    rrFull [] 2 = Except.error SimErr.divByZero ∧
    priFull [] = Except.error SimErr.emptySeq := by
  exact ⟨rfl, rfl, rfl, rfl⟩

/-- C7 counterexample.  The input invalidInput has a negative arrival
time and a zero burst time, yet simulate_fcfs performs no validation:
it runs the simulation on it and returns a normal result, including an
executed timeline entry (P1, 0, 0).  The claim that every engine
rejects such input before the simulation starts is therefore false. -/
theorem c7_counterexample :
    ¬ Valid3 invalidInput ∧
    fcfs invalidInput = Except.ok ⟨[("P1", -3, 0, 0, 3, 3)], [("P1", 0, 0)], 3, 3⟩ := by
  refine ⟨by decide, ?_⟩
  have h1 : (fcfsLoop (sortByArrival invalidInput)).rows = [("P1", -3, 0, 0, 3, 3)] := by decide
  have h2 : (fcfsLoop (sortByArrival invalidInput)).gantt = [("P1", 0, 0)] := by decide
  have h3 : (fcfsLoop (sortByArrival invalidInput)).totalWait = 3 := by decide
  have h4 : (fcfsLoop (sortByArrival invalidInput)).totalTurn = 3 := by decide
  rw [fcfs_eval invalidInput (by decide), h1, h2, h3, h4,
    show invalidInput.length = 1 from rfl]
  simp only [Except.ok.injEq, FcfsResult.mk.injEq]
  norm_num

/-- C8 counterexample.  On boundInput the priority loop bound max_time
equals -4, so the loop condition current_time < max_time fails at entry
with both processes incomplete; the engine does not surface any
simulation-consistency failure but falls through and reports metrics
computed from the finish_time sentinel -1 for both uncompleted
processes (completion -1, turnaround -1, waiting -6 and 9) and an
average over the full input length.  The claim is therefore false. -/
theorem c8_counterexample :
    countIncomplete (initPri boundInput) = 2 ∧
    ¬ (initPri boundInput).time < (initPri boundInput).maxTime ∧
    priFull boundInput =
      Except.ok ⟨[⟨"A", 0, 5, 1, -1, -6, -1⟩, ⟨"B", 0, -10, 2, -1, 9, -1⟩], [], 3 / 2, -1⟩ := by
  refine ⟨by decide, by decide, ?_⟩
  have h : priObs boundInput =
      some ([⟨"A", 0, 5, 1, -1, -6, -1⟩, ⟨"B", 0, -10, 2, -1, 9, -1⟩], [], 3, -2) := by decide
  rw [pri_eval boundInput _ (by decide) h, show boundInput.length = 2 from rfl]
  simp only [Except.ok.injEq, PriResult.mk.injEq]
  norm_num

/-- C9 counterexample.  simulate_fcfs and simulate_sjf sort the list passed
by the caller in place by arrival time, so on swapInput that list is
left reordered, not exactly as it was received.  The claim is
therefore false. -/
theorem c9_counterexample :
    fcfsAfter swapInput ≠ swapInput ∧
    sjfAfter swapInput ≠ swapInput ∧
    fcfsAfter swapInput = [⟨"P1", 0, 7⟩, ⟨"P2", 2, 4⟩] := by
  decide

/-! ## Error-handling claims: amended theorems -/

/-- C6 corrected.  An engine run fails exactly on the empty process
list: FCFS, SJF and Round Robin with a division-by-zero computing the
averages, the priority engine with an empty-sequence error computing
the maximum arrival; no explicit empty-result indicator is ever
returned.  (The only other raise point, the idle-branch minimum of the
priority loop, is unreachable, as runPri_isSome shows.) -/
theorem c6_empty_amended (l : List Proc3) (l4 : List Proc4) (q : Int) :
    (fcfs l = Except.error SimErr.divByZero ↔ l = []) ∧
    (sjfFull l = Except.error SimErr.divByZero ↔ l = []) ∧
    (rrFull l q = Except.error SimErr.divByZero ↔ l = []) ∧
    (priFull l4 = Except.error SimErr.emptySeq ↔ l4 = []) := by
  refine ⟨⟨?_, ?_⟩, ⟨?_, ?_⟩, ⟨?_, ?_⟩, ⟨?_, ?_⟩⟩
  · intro h
    cases l with
    | nil => rfl
    | cons a t =>
        rw [fcfs_eval (a :: t) (by simp)] at h
        exact absurd h (by simp)
  · rintro rfl; rfl
  · intro h
    cases l with
    | nil => rfl
    | cons a t =>
        rw [sjf_eval (a :: t) (by simp)] at h
        exact absurd h (by simp)
  · rintro rfl; rfl
  · intro h
    cases l with
    | nil => rfl
    | cons a t =>
        rw [rr_eval (a :: t) q (by simp)] at h
        exact absurd h (by simp)
  · rintro rfl; rfl
  · intro h
    cases l4 with
    | nil => rfl
    | cons a t =>
        obtain ⟨ob, hob⟩ := Option.isSome_iff_exists.mp (priObs_isSome (a :: t))
        rw [pri_eval (a :: t) ob (by simp) hob] at h
        exact absurd h (by simp)
  · rintro rfl; rfl

/-- Witness for c6_empty_amended at the concrete test inputs. -/
theorem c6_witness :
    (fcfs testNP = Except.error SimErr.divByZero ↔ testNP = []) ∧
    (sjfFull testNP = Except.error SimErr.divByZero ↔ testNP = []) ∧
    (rrFull testNP 2 = Except.error SimErr.divByZero ↔ testNP = []) ∧
    (priFull testWP = Except.error SimErr.emptySeq ↔ testWP = []) :=
  c6_empty_amended testNP testWP 2

/-- The state after one Round Robin step with quantum 0 on rrZeroInput
is, apart from the growing chart, a fixed point of the loop body: the
slice length min(0, remaining) is 0, so no progress is ever made. -/
theorem rrZero_step_fixed (st : RRSt) (hp : st.pending = []) (hq : st.queue = ["P"])
    (ht : st.time = 0) (hd : st.details "P" = ⟨0, 2, 2, 0, 0, 0, none, false⟩) :
    (rrStep 0 st).pending = [] ∧ (rrStep 0 st).queue = ["P"] ∧ (rrStep 0 st).time = 0 ∧
    (rrStep 0 st).details "P" = ⟨0, 2, 2, 0, 0, 0, none, false⟩ := by
  simp only [rrStep, hp, hq, ht, hd, enqueueArrivals]
  norm_num [Function.update_same]

/-- Any state satisfying the fixed-point facts keeps them under the
whole loop, for every amount of fuel. -/
theorem rrZero_run_fixed : ∀ (fuel : Nat) (st : RRSt),
    st.pending = [] → st.queue = ["P"] → st.time = 0 →
    st.details "P" = ⟨0, 2, 2, 0, 0, 0, none, false⟩ →
    (runRR 0 fuel st).details "P" = ⟨0, 2, 2, 0, 0, 0, none, false⟩ := by
  intro fuel
  induction fuel with
  | zero => intro st _ _ _ hd; exact hd
  | succ f ih =>
      intro st hp hq ht hd
      have hg : ¬(st.pending = [] ∧ st.queue = []) := by
        rw [hq]; intro h; exact absurd h.2 (by simp)
      obtain ⟨h1, h2, h3, h4⟩ := rrZero_step_fixed st hp hq ht hd
      simp only [runRR, if_neg hg]
      exact ih _ h1 h2 h3 h4

/-- C7 corrected.  No engine rejects invalid input: every non-empty
list, whatever its arrival and burst values, is simulated to a normal
ok result by FCFS, SJF and the priority engine, and Round Robin with
quantum 0 (which the claim says must be rejected) instead loops
forever: its bookkeeping shows the process still incomplete after any
number of loop iterations. -/
theorem c7_no_validation_amended :
    (∀ l : List Proc3, l ≠ [] → ∃ r, fcfs l = Except.ok r) ∧
    (∀ l : List Proc3, l ≠ [] → ∃ r, sjfFull l = Except.ok r) ∧
    (∀ l4 : List Proc4, l4 ≠ [] → ∃ r, priFull l4 = Except.ok r) ∧
    (∀ fuel : Nat, ((runRR 0 fuel (initRR rrZeroInput)).details "P").completed = false) := by
  refine ⟨?_, ?_, ?_, ?_⟩
  · intro l hl
    exact ⟨_, fcfs_eval l (fun h => hl (List.length_eq_zero.mp h))⟩
  · intro l hl
    exact ⟨_, sjf_eval l (fun h => hl (List.length_eq_zero.mp h))⟩
  · intro l4 hl
    obtain ⟨ob, hob⟩ := Option.isSome_iff_exists.mp (priObs_isSome l4)
    exact ⟨_, pri_eval l4 ob hl hob⟩
  · intro fuel
    cases fuel with
    | zero => decide
    | succ f =>
        have hg : ¬((initRR rrZeroInput).pending = [] ∧ (initRR rrZeroInput).queue = []) := by
          intro h
          have := h.1
          revert this
          decide
        have hstep : (rrStep 0 (initRR rrZeroInput)).pending = [] ∧
            (rrStep 0 (initRR rrZeroInput)).queue = ["P"] ∧
            (rrStep 0 (initRR rrZeroInput)).time = 0 ∧
            (rrStep 0 (initRR rrZeroInput)).details "P" = ⟨0, 2, 2, 0, 0, 0, none, false⟩ := by
          refine ⟨by decide, by decide, by decide, by decide⟩
        simp only [runRR, if_neg hg]
        rw [rrZero_run_fixed f _ hstep.1 hstep.2.1 hstep.2.2.1 hstep.2.2.2]

/-- Witness for c7_no_validation_amended: the invalid input is accepted
by FCFS and after five loop iterations the quantum-0 process is still
incomplete. -/
theorem c7_witness :
    (∃ r, fcfs invalidInput = Except.ok r) ∧
    ((runRR 0 5 (initRR rrZeroInput)).details "P").completed = false :=
  ⟨c7_no_validation_amended.1 invalidInput (by decide), c7_no_validation_amended.2.2.2 5⟩

/-- C8 corrected.  Whatever state the priority event loop stops in,
completed or not, the engine falls through to the metrics block: it
returns an ok result whose rows are computed uniformly from each dict
finish_time of the entry (the sentinel -1 for an uncompleted process), with
turnaround = completion - arrival and waiting = turnaround - burst for
every row; no simulation-consistency failure is surfaced. -/
theorem c8_fallthrough_amended (l : List Proc4) (hl : l ≠ []) :
    ∃ st, runPri (priFuel l) (initPri l) = some st ∧
      priFull l = Except.ok
        ⟨mkPriRows l st, st.gantt,
          (((keysOf4 l).map (fun n =>
            ((st.details n).finishTime - (st.details n).arrival) - (st.details n).burst)).sum : ℚ)
            / (l.length : ℚ),
          (((keysOf4 l).map (fun n =>
            (st.details n).finishTime - (st.details n).arrival)).sum : ℚ) / (l.length : ℚ)⟩ ∧
      ∀ row ∈ mkPriRows l st, row.turn = row.ct - row.arrival ∧ row.wait = row.turn - row.burst := by
  obtain ⟨st, hst⟩ := Option.isSome_iff_exists.mp (runPri_isSome (priFuel l) (initPri l))
  have hob : priObs l = some (mkPriRows l st, st.gantt,
      ((keysOf4 l).map (fun n =>
        ((st.details n).finishTime - (st.details n).arrival) - (st.details n).burst)).sum,
      ((keysOf4 l).map (fun n => (st.details n).finishTime - (st.details n).arrival)).sum) := by
    simp [priObs, hst]
  refine ⟨st, hst, pri_eval l _ hl hob, ?_⟩
  intro row hrow
  obtain ⟨n, hn, rfl⟩ := List.mem_map.mp hrow
  exact ⟨rfl, rfl⟩

/-- Witness for c8_fallthrough_amended at boundInput, where the loop
stops immediately with both processes incomplete. -/
theorem c8_witness :
    ∃ st, runPri (priFuel boundInput) (initPri boundInput) = some st ∧
      priFull boundInput = Except.ok
        ⟨mkPriRows boundInput st, st.gantt,
          (((keysOf4 boundInput).map (fun n =>
            ((st.details n).finishTime - (st.details n).arrival) - (st.details n).burst)).sum : ℚ)
            / (boundInput.length : ℚ),
          (((keysOf4 boundInput).map (fun n =>
            (st.details n).finishTime - (st.details n).arrival)).sum : ℚ)
            / (boundInput.length : ℚ)⟩ ∧
      ∀ row ∈ mkPriRows boundInput st,
        row.turn = row.ct - row.arrival ∧ row.wait = row.turn - row.burst :=
  c8_fallthrough_amended boundInput (by decide)

/-! ## C1: the executed slice of the priority engine -/

/-- C1 confirmed.  At every decision point of the priority engine at
which some process is available (the step dispatches rather than
idles), the emitted slice runs from the current time to the next event
time, and that next event time is exactly the minimum of (a) current
time + remaining of the selected process and (b) the arrival times of
the not-yet-arrived processes of numerically strictly smaller priority
than the selected process: it is a lower bound of all of them and is
attained by one of them.  The remaining time of the selected process drops
by the slice length.  On the concrete input of the claim the first step
emits exactly (P1, 0, 2) and leaves P1 with remaining 5, not yet
completed: the first preemption is at time 2. -/
theorem c1_slice_end :
    (∀ (st : PriSt) (a : String) (as : List String),
      availNames st = a :: as →
      (priStep st).map PriSt.gantt =
        some (st.gantt ++
          [(selectPri st a as, st.time, nextEventTime st (selectPri st a as))]) ∧
      (priStep st).map PriSt.time = some (nextEventTime st (selectPri st a as)) ∧
      (priStep st).map (fun s => (s.details (selectPri st a as)).remaining) =
        some ((st.details (selectPri st a as)).remaining -
          (nextEventTime st (selectPri st a as) - st.time)) ∧
      nextEventTime st (selectPri st a as) ≤
        st.time + (st.details (selectPri st a as)).remaining ∧
      (∀ n ∈ st.ks, st.time < (st.details n).arrival →
        (st.details n).priority < (st.details (selectPri st a as)).priority →
        nextEventTime st (selectPri st a as) ≤ (st.details n).arrival) ∧
      (nextEventTime st (selectPri st a as) =
          st.time + (st.details (selectPri st a as)).remaining ∨
        ∃ n ∈ st.ks, st.time < (st.details n).arrival ∧
          (st.details n).priority < (st.details (selectPri st a as)).priority ∧
          nextEventTime st (selectPri st a as) = (st.details n).arrival)) ∧
    ((priStep (initPri testWP)).map PriSt.gantt = some [("P1", 0, 2)] ∧
     (priStep (initPri testWP)).map PriSt.time = some 2 ∧
     (priStep (initPri testWP)).map (fun s => (s.details "P1").remaining) = some 5 ∧
     (priStep (initPri testWP)).map (fun s => (s.details "P1").completed) = some false) := by
  constructor
  · intro st a as hA
    refine ⟨?_, ?_, ?_, ?_, ?_, ?_⟩
    · simp [priStep, hA]
    · simp [priStep, hA]
    · simp only [priStep, hA, Option.map_some', Function.update_same]
      split_ifs <;> rfl
    · exact foldMinIf_le_init _ _ st.ks _
    · intro n hn h1 h2
      refine foldMinIf_le_of_mem _ _ st.ks _ n hn ?_
      simp only [Bool.and_eq_true, decide_eq_true_eq]
      exact ⟨h1, h2⟩
    · rcases foldMinIf_cases
          (fun n => decide (st.time < (st.details n).arrival) &&
            decide ((st.details n).priority < (st.details (selectPri st a as)).priority))
          (fun n => (st.details n).arrival) st.ks
          (st.time + (st.details (selectPri st a as)).remaining) with h | ⟨n, hn, hp, he⟩
      · exact Or.inl h
      · simp only [Bool.and_eq_true, decide_eq_true_eq] at hp
        exact Or.inr ⟨n, hn, hp.1, hp.2, he⟩
  · exact ⟨by decide, by decide, by decide, by decide⟩

/-- Witness for c1_slice_end: its universal part applied to the initial
state of the input of the claim, where only P1 is available. -/
theorem c1_witness :
    (priStep (initPri testWP)).map PriSt.time =
      some (nextEventTime (initPri testWP) (selectPri (initPri testWP) "P1" [])) :=
  (c1_slice_end.1 (initPri testWP) "P1" [] (by decide)).2.1

/-! ## C2: Round Robin admits slice arrivals before re-queuing -/

/-- The admission loop splits the pending list at the first record that
has not arrived yet: the admitted prefix is appended, in order, behind
the existing queue, and the head of the remainder (when any) has not
arrived. -/
theorem enqueueArrivals_split : ∀ (pen : List Proc3) (t : Int) (q : List String),
    ∃ taken rest, pen = taken ++ rest ∧
      enqueueArrivals pen t q = (q ++ taken.map Proc3.name, rest) ∧
      (∀ p ∈ taken, p.arrival ≤ t) ∧
      (rest = [] ∨ ∃ hd tl, rest = hd :: tl ∧ t < hd.arrival) := by
  intro pen
  induction pen with
  | nil =>
      intro t q
      exact ⟨[], [], rfl, by simp [enqueueArrivals], by simp, Or.inl rfl⟩
  | cons p ps ih =>
      intro t q
      by_cases hp : p.arrival ≤ t
      · obtain ⟨taken, rest, he, hq, hle, hrest⟩ := ih t (q ++ [p.name])
        refine ⟨p :: taken, rest, by rw [List.cons_append, ← he], ?_, ?_, hrest⟩
        · rw [show enqueueArrivals (p :: ps) t q = enqueueArrivals ps t (q ++ [p.name]) from
            by simp [enqueueArrivals, hp], hq]
          simp
        · intro x hx
          rcases List.mem_cons.mp hx with rfl | hx2
          · exact hp
          · exact hle x hx2
      · exact ⟨[], p :: ps, rfl, by simp [enqueueArrivals, hp], by simp,
          Or.inr ⟨p, ps, rfl, lt_of_not_le hp⟩⟩

/-- C2 confirmed.  In every dispatching Round Robin step (the queue
after initial admission is front :: rest), the resulting ready queue is
rest, then the names of the processes that arrived during the slice
(in arrival order), and only then, when the front process is not yet
finished, the front process itself: a re-queued process never precedes
the arrivals of its own slice.  On the concrete input of the claim with
quantum 2 the first three timeline entries are (P1,0,2), (P2,2,4) and
(P1,4,6), and after the step ending at time 6 the queue is
[P3, P2, P4, P1]: P3 (which entered during the earlier slice of P2,
hence before P1 was re-queued at time 6) and P4 (which entered during
the slice of P1 itself) both precede the re-queued P1. -/
theorem c2_arrivals_before_requeue :
    (∀ (q : Int) (st : RRSt) (front : String) (rest : List String) (pen1 : List Proc3),
      enqueueArrivals st.pending st.time st.queue = (front :: rest, pen1) →
      ∃ taken pen2,
        pen1 = taken ++ pen2 ∧
        (∀ p ∈ taken, p.arrival ≤ st.time + min q ((st.details front).remaining)) ∧
        (rrStep q st).queue =
          (if (st.details front).remaining - min q ((st.details front).remaining) == 0
           then rest ++ taken.map Proc3.name
           else rest ++ taken.map Proc3.name ++ [front]) ∧
        (rrStep q st).gantt = st.gantt ++
          [(front, st.time, st.time + min q ((st.details front).remaining))] ∧
        (rrStep q st).pending = pen2) ∧
    ((runRR 2 3 (initRR testNP)).gantt = [("P1", 0, 2), ("P2", 2, 4), ("P1", 4, 6)] ∧
     (runRR 2 3 (initRR testNP)).queue = ["P3", "P2", "P4", "P1"] ∧
     (runRR 2 3 (initRR testNP)).time = 6) := by
  constructor
  · intro q st front rest pen1 hE
    obtain ⟨taken, pen2, hsplit, hq2, hle, _⟩ :=
      enqueueArrivals_split pen1 (st.time + min q ((st.details front).remaining)) rest
    refine ⟨taken, pen2, hsplit, hle, ?_, ?_, ?_⟩
    · simp only [rrStep, hE, hq2]
    · simp only [rrStep, hE]
    · simp only [rrStep, hE, hq2]
  · exact ⟨by decide, by decide, by decide⟩

/-- Witness for c2_arrivals_before_requeue: its universal part applied to
the state after two Round Robin steps on the input of the claim, the step
that runs P1 from 4 to 6 and re-queues it behind P4. -/
theorem c2_witness :
    ∃ taken pen2,
      ([⟨"P4", 5, 4⟩] : List Proc3) = taken ++ pen2 ∧
      (∀ p ∈ taken, p.arrival ≤ (runRR 2 2 (initRR testNP)).time +
        min 2 (((runRR 2 2 (initRR testNP)).details "P1").remaining)) ∧
      (rrStep 2 (runRR 2 2 (initRR testNP))).queue =
        (if ((runRR 2 2 (initRR testNP)).details "P1").remaining -
            min 2 (((runRR 2 2 (initRR testNP)).details "P1").remaining) == 0
         then ["P3", "P2"] ++ taken.map Proc3.name
         else ["P3", "P2"] ++ taken.map Proc3.name ++ ["P1"]) ∧
      (rrStep 2 (runRR 2 2 (initRR testNP))).gantt = (runRR 2 2 (initRR testNP)).gantt ++
        [("P1", (runRR 2 2 (initRR testNP)).time, (runRR 2 2 (initRR testNP)).time +
          min 2 (((runRR 2 2 (initRR testNP)).details "P1").remaining))] ∧
      (rrStep 2 (runRR 2 2 (initRR testNP))).pending = pen2 :=
  c2_arrivals_before_requeue.1 2 (runRR 2 2 (initRR testNP)) "P1" ["P3", "P2"]
    [⟨"P4", 5, 4⟩] (by decide)

/-! ## C3: the SJF tie-break -/

/-- The selection available_jobs.sort(key=burst)[0] picks the first
element of minimal burst: the chosen job splits the list into a prefix
of strictly larger bursts and a suffix of no-smaller bursts. -/
theorem minBurstFirst_split : ∀ (as : List SjfJob) (a : SjfJob),
    ∃ l1 l2, a :: as = l1 ++ minBurstFirst a as :: l2 ∧
      (∀ j ∈ l1, (minBurstFirst a as).burst < j.burst) ∧
      (∀ j ∈ a :: as, (minBurstFirst a as).burst ≤ j.burst) := by
  intro as
  induction as with
  | nil =>
      intro a
      refine ⟨[], [], rfl, by simp, ?_⟩
      intro j hj
      rcases List.mem_cons.mp hj with rfl | hj2
      · exact le_refl _
      · exact absurd hj2 (List.not_mem_nil j)
  | cons x xs ih =>
      intro a
      by_cases hx : x.burst < a.burst
      · obtain ⟨l1, l2, he, hlt, hle⟩ := ih x
        have hstep : minBurstFirst a (x :: xs) = minBurstFirst x xs := by
          rw [show minBurstFirst a (x :: xs) =
            minBurstFirst (if x.burst < a.burst then x else a) xs from rfl, if_pos hx]
        have hax : (minBurstFirst x xs).burst < a.burst :=
          lt_of_le_of_lt (hle x (List.mem_cons_self x xs)) hx
        refine ⟨a :: l1, l2, ?_, ?_, ?_⟩
        · rw [hstep, List.cons_append, ← he]
        · intro j hj
          rw [hstep]
          rcases List.mem_cons.mp hj with rfl | hj2
          · exact hax
          · exact hlt j hj2
        · intro j hj
          rw [hstep]
          rcases List.mem_cons.mp hj with rfl | hj2
          · exact le_of_lt hax
          · exact hle j hj2
      · obtain ⟨l1, l2, he, hlt, hle⟩ := ih a
        have hstep : minBurstFirst a (x :: xs) = minBurstFirst a xs := by
          rw [show minBurstFirst a (x :: xs) =
            minBurstFirst (if x.burst < a.burst then x else a) xs from rfl, if_neg hx]
        have hax : a.burst ≤ x.burst := le_of_not_lt hx
        have hma : (minBurstFirst a xs).burst ≤ a.burst := hle a (List.mem_cons_self a xs)
        cases l1 with
        | nil =>
            have hinj := List.cons_eq_cons.mp (by simpa using he)
            refine ⟨[], x :: xs, ?_, by simp, ?_⟩
            · rw [hstep, List.nil_append, ← hinj.1]
            · intro j hj
              rw [hstep]
              rcases List.mem_cons.mp hj with rfl | hj2
              · exact hma
              · rcases List.mem_cons.mp hj2 with rfl | hj3
                · exact le_trans hma hax
                · exact hle j (List.mem_cons_of_mem a hj3)
        | cons b l1b =>
            have hinj := List.cons_eq_cons.mp (by simpa using he)
            have hmb : (minBurstFirst a xs).burst < a.burst := by
              have h := hlt b (List.mem_cons_self b l1b)
              rwa [← hinj.1] at h
            refine ⟨a :: x :: l1b, l2, ?_, ?_, ?_⟩
            · rw [hstep]
              show a :: x :: xs = a :: x :: (l1b ++ minBurstFirst a xs :: l2)
              rw [← hinj.2]
            · intro j hj
              rw [hstep]
              rcases List.mem_cons.mp hj with rfl | hj2
              · exact hmb
              · rcases List.mem_cons.mp hj2 with rfl | hj3
                · exact lt_of_lt_of_le hmb hax
                · exact hlt j (List.mem_cons_of_mem b hj3)
            · intro j hj
              rw [hstep]
              rcases List.mem_cons.mp hj with rfl | hj2
              · exact le_of_lt hmb
              · rcases List.mem_cons.mp hj2 with rfl | hj3
                · exact le_of_lt (lt_of_lt_of_le hmb hax)
                · exact hle j (List.mem_cons_of_mem a hj3)

/-- C3 corrected.  The initial SJF working list is the arrival-sorted
input, and at every dispatching step the engine runs the job returned
by minBurstFirst on the available list: that job is available, its
burst is minimal among the available jobs, and every available job
BEFORE it in the arrival-sorted working order has a strictly larger
burst — i.e., burst ties are broken by earliest position in the
arrival-sorted available list (earliest arrival, then input order),
not by original input order alone. -/
theorem c3_sjf_tiebreak_amended :
    (∀ l : List Proc3,
      (initSjf l).working =
        (sortByArrival l).map (fun p => ⟨p.name, p.arrival, p.burst, false⟩)) ∧
    (∀ (st : SjfSt) (a : SjfJob) (as : List SjfJob),
      availableJobs st = a :: as →
      (sjfStep st).gantt = st.gantt ++
        [((minBurstFirst a as).name, st.time, st.time + (minBurstFirst a as).burst)] ∧
      minBurstFirst a as ∈ availableJobs st ∧
      (∀ j ∈ availableJobs st, (minBurstFirst a as).burst ≤ j.burst) ∧
      ∃ l1 l2, availableJobs st = l1 ++ minBurstFirst a as :: l2 ∧
        ∀ j ∈ l1, (minBurstFirst a as).burst < j.burst) := by
  constructor
  · intro l
    rfl
  · intro st a as hA
    obtain ⟨l1, l2, he, hlt, hle⟩ := minBurstFirst_split as a
    refine ⟨by simp [sjfStep, hA], ?_, ?_, ⟨l1, l2, by rw [hA]; exact he, hlt⟩⟩
    · rw [hA, he]
      exact List.mem_append_right l1 (List.mem_cons_self _ l2)
    · intro j hj
      rw [hA] at hj
      exact hle j hj

/-- Witness for c3_sjf_tiebreak_amended: its step part applied to the
second decision point on sjfTieInput, where B and A tie on burst and B
is run. -/
theorem c3_witness :
    (sjfStep (sjfStep (initSjf sjfTieInput))).gantt =
      (sjfStep (initSjf sjfTieInput)).gantt ++
        [((minBurstFirst ⟨"B", 1, 3, false⟩ [⟨"A", 2, 3, false⟩]).name,
          (sjfStep (initSjf sjfTieInput)).time,
          (sjfStep (initSjf sjfTieInput)).time +
            (minBurstFirst ⟨"B", 1, 3, false⟩ [⟨"A", 2, 3, false⟩]).burst)] :=
  (c3_sjf_tiebreak_amended.2 (sjfStep (initSjf sjfTieInput))
    ⟨"B", 1, 3, false⟩ [⟨"A", 2, 3, false⟩] (by decide)).1

/-! ## C4: FCFS dispatch order, stability and the start rule -/

theorem filter_orderedInsert_pos (x : Proc3) (a : Int) (hx : x.arrival = a) :
    ∀ l : List Proc3, (List.orderedInsert arrLE x l).filter (fun p => p.arrival == a) =
      x :: l.filter (fun p => p.arrival == a) := by
  intro l
  induction l with
  | nil => simp [List.orderedInsert, hx]
  | cons b l ih =>
      by_cases hb : arrLE x b
      · rw [List.orderedInsert_of_le arrLE l hb]
        simp [List.filter_cons, hx]
      · have hba : (b.arrival == a) = false := by
          have : b.arrival < x.arrival := lt_of_not_le hb
          rw [hx] at this
          simpa using ne_of_lt this
        rw [show List.orderedInsert arrLE x (b :: l) = b :: List.orderedInsert arrLE x l from
          by simp [List.orderedInsert, hb]]
        simp only [List.filter_cons, hba]
        rw [ih]
        simp [List.filter_cons, hba]

theorem filter_orderedInsert_neg (x : Proc3) (a : Int) (hx : x.arrival ≠ a) :
    ∀ l : List Proc3, (List.orderedInsert arrLE x l).filter (fun p => p.arrival == a) =
      l.filter (fun p => p.arrival == a) := by
  intro l
  have hxa : (x.arrival == a) = false := by simpa using hx
  induction l with
  | nil => simp [List.orderedInsert, hxa]
  | cons b l ih =>
      by_cases hb : arrLE x b
      · rw [List.orderedInsert_of_le arrLE l hb]
        simp [List.filter_cons, hxa]
      · rw [show List.orderedInsert arrLE x (b :: l) = b :: List.orderedInsert arrLE x l from
          by simp [List.orderedInsert, hb]]
        simp only [List.filter_cons]
        rw [ih]

/-- Stability of the arrival sort: for every arrival value, the records
carrying it keep their original relative order. -/
theorem sortByArrival_stable (l : List Proc3) (a : Int) :
    (sortByArrival l).filter (fun p => p.arrival == a) =
      l.filter (fun p => p.arrival == a) := by
  induction l with
  | nil => rfl
  | cons p l ih =>
      show (List.orderedInsert arrLE p (List.insertionSort arrLE l)).filter _ = _
      unfold sortByArrival at ih
      by_cases hp : p.arrival = a
      · rw [filter_orderedInsert_pos p a hp, ih]
        simp [List.filter_cons, hp]
      · rw [filter_orderedInsert_neg p a hp, ih]
        have hpa : (p.arrival == a) = false := by simpa using hp
        simp [List.filter_cons, hpa]

/-- The FCFS fold produces exactly the recurrence chart fcfsChain. -/
theorem foldl_fcfsStep_gantt : ∀ (l : List Proc3) (acc : FcfsAcc),
    (l.foldl fcfsStep acc).gantt = acc.gantt ++ fcfsChain acc.ct l := by
  intro l
  induction l with
  | nil => intro acc; simp [fcfsChain]
  | cons p ps ih =>
      intro acc
      rw [List.foldl_cons, ih]
      simp [fcfsStep, fcfsChain]

theorem prevEndAt_cons (c : Int) (p : Proc3) (ps : List Proc3) (k : Nat) :
    prevEndAt c (fcfsChain c (p :: ps)) (k + 1) =
      prevEndAt (max c p.arrival + p.burst) (fcfsChain (max c p.arrival + p.burst) ps) k := by
  cases k with
  | zero => simp [prevEndAt, fcfsChain]
  | succ j => simp [prevEndAt, fcfsChain]

/-- Entry k of the recurrence chart: the process at position k of the
dispatched list starts at the maximum of the end of the previous entry (the
starting completion time for k = 0) and its own arrival, and ends a
full burst later. -/
theorem fcfsChain_getD : ∀ (l : List Proc3) (c : Int) (k : Nat), k < l.length →
    (fcfsChain c l).getD k ("", 0, 0) =
      ((l.getD k ⟨"", 0, 0⟩).name,
       max (prevEndAt c (fcfsChain c l) k) (l.getD k ⟨"", 0, 0⟩).arrival,
       max (prevEndAt c (fcfsChain c l) k) (l.getD k ⟨"", 0, 0⟩).arrival +
         (l.getD k ⟨"", 0, 0⟩).burst) := by
  intro l
  induction l with
  | nil =>
      intro c k hk
      exact absurd hk (by simp)
  | cons p ps ih =>
      intro c k hk
      cases k with
      | zero => simp [fcfsChain, prevEndAt]
      | succ k =>
          have hk2 : k < ps.length := by simpa using hk
          have h := ih (max c p.arrival + p.burst) k hk2
          rw [prevEndAt_cons]
          simpa [fcfsChain, List.getD_cons_succ] using h

/-- C4 corrected.  FCFS dispatches the arrival-sorted input: the sorted
list is sorted by arrival, is a permutation of the input, and is
stable (records with equal arrivals keep their input order); entry k
of the chart starts at max(previous completion, arrival) and ends a
burst later, so every process runs to completion uninterrupted.  On
the input of the claim the completion times are 7, 11, 12 and 16 and
the waiting times 0, 5, 7 and 7 with average 19/4 = 4.75 (the claimed 8
and 5.00 were wrong). -/
theorem c4_fcfs_amended :
    (∀ l : List Proc3,
      List.Sorted arrLE (sortByArrival l) ∧
      (sortByArrival l).Perm l ∧
      (∀ a : Int, (sortByArrival l).filter (fun p => p.arrival == a) =
        l.filter (fun p => p.arrival == a))) ∧
    (∀ (l : List Proc3) (k : Nat), k < (sortByArrival l).length →
      (fcfsLoop (sortByArrival l)).gantt.getD k ("", 0, 0) =
        (((sortByArrival l).getD k ⟨"", 0, 0⟩).name,
         max (prevEndAt 0 (fcfsLoop (sortByArrival l)).gantt k)
           ((sortByArrival l).getD k ⟨"", 0, 0⟩).arrival,
         max (prevEndAt 0 (fcfsLoop (sortByArrival l)).gantt k)
           ((sortByArrival l).getD k ⟨"", 0, 0⟩).arrival +
           ((sortByArrival l).getD k ⟨"", 0, 0⟩).burst)) ∧
    fcfs testNP = Except.ok
      ⟨[("P1", 0, 7, 7, 0, 7), ("P2", 2, 4, 11, 5, 9),
        ("P3", 4, 1, 12, 7, 8), ("P4", 5, 4, 16, 7, 11)],
       [("P1", 0, 7), ("P2", 7, 11), ("P3", 11, 12), ("P4", 12, 16)], 19 / 4, 35 / 4⟩ := by
  refine ⟨?_, ?_, ?_⟩
  · intro l
    exact ⟨List.sorted_insertionSort arrLE l, List.perm_insertionSort arrLE l,
      sortByArrival_stable l⟩
  · intro l k hk
    have hg : (fcfsLoop (sortByArrival l)).gantt = fcfsChain 0 (sortByArrival l) := by
      simpa using foldl_fcfsStep_gantt (sortByArrival l) ⟨0, 0, 0, [], []⟩
    rw [hg]
    exact fcfsChain_getD (sortByArrival l) 0 k hk
  · have h1 : (fcfsLoop (sortByArrival testNP)).rows =
        [("P1", 0, 7, 7, 0, 7), ("P2", 2, 4, 11, 5, 9),
         ("P3", 4, 1, 12, 7, 8), ("P4", 5, 4, 16, 7, 11)] := by decide
    have h2 : (fcfsLoop (sortByArrival testNP)).gantt =
        [("P1", 0, 7), ("P2", 7, 11), ("P3", 11, 12), ("P4", 12, 16)] := by decide
    have h3 : (fcfsLoop (sortByArrival testNP)).totalWait = 19 := by decide
    have h4 : (fcfsLoop (sortByArrival testNP)).totalTurn = 35 := by decide
    rw [fcfs_eval testNP (by decide), h1, h2, h3, h4, show testNP.length = 4 from rfl]
    simp only [Except.ok.injEq, FcfsResult.mk.injEq]
    norm_num

/-- Witness for c4_fcfs_amended: the order properties at the test
input, and the entry-2 dispatch rule instance.  P3 sits at position 2
of the sorted list and its entry starts at max(end of entry 1,
arrival of P3). -/
theorem c4_witness :
    List.Sorted arrLE (sortByArrival testNP) ∧
    (fcfsLoop (sortByArrival testNP)).gantt.getD 2 ("", 0, 0) =
      (((sortByArrival testNP).getD 2 ⟨"", 0, 0⟩).name,
       max (prevEndAt 0 (fcfsLoop (sortByArrival testNP)).gantt 2)
         ((sortByArrival testNP).getD 2 ⟨"", 0, 0⟩).arrival,
       max (prevEndAt 0 (fcfsLoop (sortByArrival testNP)).gantt 2)
         ((sortByArrival testNP).getD 2 ⟨"", 0, 0⟩).arrival +
         ((sortByArrival testNP).getD 2 ⟨"", 0, 0⟩).burst) :=
  ⟨(c4_fcfs_amended.1 testNP).1, c4_fcfs_amended.2.1 testNP 2 (by decide)⟩

/-! ## C10: dict bookkeeping keyed by process name -/

theorem stringKeys_mem : ∀ (ns : List String) (acc : List String) (n : String),
    n ∈ ns.foldl (fun ks m => if m ∈ ks then ks else ks ++ [m]) acc ↔ n ∈ acc ∨ n ∈ ns := by
  intro ns
  induction ns with
  | nil => intro acc n; simp
  | cons m ns ih =>
      intro acc n
      rw [List.foldl_cons, ih]
      by_cases hm : m ∈ acc
      · rw [if_pos hm]
        constructor
        · rintro (h | h)
          · exact Or.inl h
          · exact Or.inr (List.mem_cons_of_mem m h)
        · rintro (h | h)
          · exact Or.inl h
          · rcases List.mem_cons.mp h with rfl | h2
            · exact Or.inl hm
            · exact Or.inr h2
      · rw [if_neg hm]
        simp only [List.mem_append, List.mem_singleton, List.mem_cons]
        tauto

theorem stringKeys_nodup : ∀ (ns : List String) (acc : List String), acc.Nodup →
    (ns.foldl (fun ks m => if m ∈ ks then ks else ks ++ [m]) acc).Nodup := by
  intro ns
  induction ns with
  | nil => intro acc h; exact h
  | cons m ns ih =>
      intro acc h
      rw [List.foldl_cons]
      by_cases hm : m ∈ acc
      · rw [if_pos hm]; exact ih acc h
      · rw [if_neg hm]
        refine ih _ ?_
        simpa [List.nodup_append] using ⟨h, hm⟩

theorem keysOf3_spec (l : List Proc3) :
    (keysOf3 l).Nodup ∧ ∀ n, n ∈ keysOf3 l ↔ n ∈ l.map Proc3.name := by
  have he : keysOf3 l =
      (l.map Proc3.name).foldl (fun ks m => if m ∈ ks then ks else ks ++ [m]) [] := by
    rw [List.foldl_map]
    rfl
  rw [he]
  exact ⟨stringKeys_nodup _ [] List.nodup_nil, fun n => by
    rw [stringKeys_mem]; simp⟩

theorem keysOf4_spec (l : List Proc4) :
    (keysOf4 l).Nodup ∧ ∀ n, n ∈ keysOf4 l ↔ n ∈ l.map Proc4.name := by
  have he : keysOf4 l =
      (l.map Proc4.name).foldl (fun ks m => if m ∈ ks then ks else ks ++ [m]) [] := by
    rw [List.foldl_map]
    rfl
  rw [he]
  exact ⟨stringKeys_nodup _ [] List.nodup_nil, fun n => by
    rw [stringKeys_mem]; simp⟩

theorem buildRRDet_append (xs : List Proc3) (x : Proc3) :
    buildRRDet (xs ++ [x]) = Function.update (buildRRDet xs) x.name (initRRDet x) := by
  unfold buildRRDet
  rw [List.foldl_append]
  rfl

/-- A dict built by the comprehension maps each present name to the
record of its LAST occurrence: later records overwrite earlier ones. -/
theorem buildRRDet_lookup : ∀ (l : List Proc3) (n : String) (p : Proc3),
    l.reverse.find? (fun x => x.name == n) = some p → buildRRDet l n = initRRDet p := by
  intro l
  induction l using List.reverseRecOn with
  | nil => intro n p h; exact absurd h (by simp)
  | append_singleton xs x ih =>
      intro n p h
      rw [List.reverse_append, List.reverse_singleton, List.singleton_append,
        List.find?_cons] at h
      rw [buildRRDet_append]
      by_cases hx : x.name = n
      · rw [show (x.name == n) = true from by simpa using hx] at h
        have : x = p := by simpa using h
        subst this
        rw [← hx, Function.update_same]
      · rw [show (x.name == n) = false from by simpa using hx] at h
        rw [Function.update_noteq (fun he => hx he.symm)]
        exact ih n p h

theorem buildPriDet_append (xs : List Proc4) (x : Proc4) :
    buildPriDet (xs ++ [x]) = Function.update (buildPriDet xs) x.name (initPriDet x) := by
  unfold buildPriDet
  rw [List.foldl_append]
  rfl

theorem buildPriDet_lookup : ∀ (l : List Proc4) (n : String) (p : Proc4),
    l.reverse.find? (fun x => x.name == n) = some p → buildPriDet l n = initPriDet p := by
  intro l
  induction l using List.reverseRecOn with
  | nil => intro n p h; exact absurd h (by simp)
  | append_singleton xs x ih =>
      intro n p h
      rw [List.reverse_append, List.reverse_singleton, List.singleton_append,
        List.find?_cons] at h
      rw [buildPriDet_append]
      by_cases hx : x.name = n
      · rw [show (x.name == n) = true from by simpa using hx] at h
        have : x = p := by simpa using h
        subst this
        rw [← hx, Function.update_same]
      · rw [show (x.name == n) = false from by simpa using hx] at h
        rw [Function.update_noteq (fun he => hx he.symm)]
        exact ih n p h

/-- Every present name of the priority dict is bound to the value built
from one of the records carrying that name (its last occurrence). -/
theorem buildPriDet_mem : ∀ (l : List Proc4) (n : String), n ∈ l.map Proc4.name →
    ∃ p ∈ l, p.name = n ∧ buildPriDet l n = initPriDet p := by
  intro l
  induction l using List.reverseRecOn with
  | nil => intro n h; exact absurd h (by simp)
  | append_singleton xs x ih =>
      intro n h
      rw [buildPriDet_append]
      by_cases hx : x.name = n
      · refine ⟨x, by simp, hx, ?_⟩
        rw [← hx, Function.update_same]
      · have h2 : n ∈ xs.map Proc4.name := by
          rcases List.mem_map.mp h with ⟨p, hp, hpn⟩
          rcases List.mem_append.mp hp with hp2 | hp2
          · exact List.mem_map.mpr ⟨p, hp2, hpn⟩
          · rw [List.mem_singleton.mp hp2] at hpn
            exact absurd hpn hx
        obtain ⟨p, hp, hpn, hb⟩ := ih n h2
        refine ⟨p, List.mem_append_left _ hp, hpn, ?_⟩
        rw [Function.update_noteq (fun he => hx he.symm)]
        exact hb

/-- With unique names every record of the list is bound to its own dict
entry. -/
theorem buildPriDet_of_nodup : ∀ (l : List Proc4), (l.map Proc4.name).Nodup →
    ∀ p ∈ l, buildPriDet l p.name = initPriDet p := by
  intro l
  induction l using List.reverseRecOn with
  | nil => intro _ p hp; exact absurd hp (by simp)
  | append_singleton xs x ih =>
      intro hn p hp
      have hn2 : (xs.map Proc4.name).Nodup ∧ x.name ∉ xs.map Proc4.name := by
        rw [List.map_append, List.map_singleton] at hn
        rw [List.nodup_append] at hn
        exact ⟨hn.1, fun hm => hn.2.2 hm (List.mem_singleton_self _)⟩
      rw [buildPriDet_append]
      rcases List.mem_append.mp hp with hp2 | hp2
      · have hne : p.name ≠ x.name := by
          intro he
          exact hn2.2 (he ▸ List.mem_map.mpr ⟨p, hp2, rfl⟩)
        rw [Function.update_noteq hne]
        exact ih hn2.1 p hp2
      · rw [List.mem_singleton.mp hp2, Function.update_same]

/-- Same fact for the Round Robin dict. -/
theorem buildRRDet_of_nodup : ∀ (l : List Proc3), (l.map Proc3.name).Nodup →
    ∀ p ∈ l, buildRRDet l p.name = initRRDet p := by
  intro l
  induction l using List.reverseRecOn with
  | nil => intro _ p hp; exact absurd hp (by simp)
  | append_singleton xs x ih =>
      intro hn p hp
      have hn2 : (xs.map Proc3.name).Nodup ∧ x.name ∉ xs.map Proc3.name := by
        rw [List.map_append, List.map_singleton] at hn
        rw [List.nodup_append] at hn
        exact ⟨hn.1, fun hm => hn.2.2 hm (List.mem_singleton_self _)⟩
      rw [buildRRDet_append]
      rcases List.mem_append.mp hp with hp2 | hp2
      · have hne : p.name ≠ x.name := by
          intro he
          exact hn2.2 (he ▸ List.mem_map.mpr ⟨p, hp2, rfl⟩)
        rw [Function.update_noteq hne]
        exact ih hn2.1 p hp2
      · rw [List.mem_singleton.mp hp2, Function.update_same]

/-- C10 confirmed.  Round Robin and the priority engine key their
bookkeeping dicts by process name: the dict binds each present name to
the record of its last occurrence in the input (later fields overwrite
earlier ones) while the key keeps one insertion-ordered slot per
distinct name; the totals of both engines sum over those per-name
entries while the reported averages divide by the full input length.
On the duplicate-name input dupInput, Round Robin therefore reports a
single row carrying arrival 1 and burst 3 of the second record, total
waiting -1 summed over the one distinct name, and average waiting
-1/2, dividing by the input length 2. -/
theorem c10_dict_by_name :
    (∀ (l : List Proc3) (n : String) (p : Proc3),
      l.reverse.find? (fun x => x.name == n) = some p → buildRRDet l n = initRRDet p) ∧
    (∀ (l : List Proc4) (n : String) (p : Proc4),
      l.reverse.find? (fun x => x.name == n) = some p → buildPriDet l n = initPriDet p) ∧
    (∀ l : List Proc3, (keysOf3 l).Nodup ∧ ∀ n, n ∈ keysOf3 l ↔ n ∈ l.map Proc3.name) ∧
    (∀ l : List Proc4, (keysOf4 l).Nodup ∧ ∀ n, n ∈ keysOf4 l ↔ n ∈ l.map Proc4.name) ∧
    (∀ (l : List Proc3) (q : Int), l.length ≠ 0 →
      (rrFull l q).map RRResult.avgWait = Except.ok
        ((((keysOf3 l).map
          (fun n => ((runRR q (rrFuel l) (initRR l)).details n).wait)).sum : ℚ) /
          (l.length : ℚ))) ∧
    (∀ (l : List Proc4) (ob : List PriRow × List GEntry × Int × Int), l ≠ [] →
      priObs l = some ob →
      (priFull l).map PriResult.avgWait = Except.ok ((ob.2.2.1 : ℚ) / (l.length : ℚ))) ∧
    rrFull dupInput 2 = Except.ok
      ⟨[("P", 1, 3, some 3, -1, 2)], [("P", 0, 2), ("P", 2, 3), ("P", 3, 3)], -1 / 2, 1⟩ := by
  refine ⟨buildRRDet_lookup, buildPriDet_lookup, keysOf3_spec, keysOf4_spec, ?_, ?_, ?_⟩
  · intro l q h
    rw [rr_eval l q h]
    rfl
  · intro l ob hl hob
    rw [pri_eval l ob hl hob]
    rfl
  · have h1 : (rrObs dupInput 2).1 = [("P", 1, 3, some 3, -1, 2)] := by decide
    have h2 : (rrObs dupInput 2).2.1 = [("P", 0, 2), ("P", 2, 3), ("P", 3, 3)] := by decide
    have h3 : (rrObs dupInput 2).2.2.1 = -1 := by decide
    have h4 : (rrObs dupInput 2).2.2.2 = 2 := by decide
    rw [rr_eval dupInput 2 (by decide), h1, h2, h3, h4, show dupInput.length = 2 from rfl]
    simp only [Except.ok.injEq, RRResult.mk.injEq]
    norm_num

/-- Witness for c10_dict_by_name: on dupInput the dict binds P to the
second record (arrival 1, burst 3), and the reported average waiting
time divides the per-name total by the full input length 2. -/
theorem c10_witness :
    buildRRDet dupInput "P" = initRRDet ⟨"P", 1, 3⟩ ∧
    (rrFull dupInput 2).map RRResult.avgWait = Except.ok
      ((((keysOf3 dupInput).map
        (fun n => ((runRR 2 (rrFuel dupInput) (initRR dupInput)).details n).wait)).sum : ℚ) /
        (dupInput.length : ℚ)) :=
  ⟨c10_dict_by_name.1 dupInput "P" ⟨"P", 1, 3⟩ (by decide),
   c10_dict_by_name.2.2.2.2.1 dupInput 2 (by decide)⟩

/-! ## Frame effects: amended theorem for C9 -/

theorem sortByArrival_idem (l : List Proc3) :
    sortByArrival (sortByArrival l) = sortByArrival l :=
  List.Sorted.insertionSort_eq (List.sorted_insertionSort arrLE l)

theorem sortByArrival_length (l : List Proc3) : (sortByArrival l).length = l.length :=
  (List.perm_insertionSort arrLE l).length_eq

/-- C9 corrected.  Round Robin and the priority engine leave the
list of the caller unchanged, but FCFS and SJF sort it in place by arrival
time (stable); rerunning FCFS or SJF on the list an earlier FCFS or
SJF run left behind still gives identical results, because both
re-sort and the stable sort is idempotent.  (The main script guards
the mutation by deep-copying the list before every call.) -/
theorem c9_mutation_amended :
    (∀ l : List Proc3, rrAfter l = l ∧ fcfsAfter l = sortByArrival l ∧
       sjfAfter l = sortByArrival l) ∧
    (∀ l4 : List Proc4, priAfter l4 = l4) ∧
    (∀ l : List Proc3, fcfs (fcfsAfter l) = fcfs l ∧ sjfFull (fcfsAfter l) = sjfFull l ∧
       fcfs (sjfAfter l) = fcfs l ∧ sjfFull (sjfAfter l) = sjfFull l) := by
  refine ⟨fun l => ⟨rfl, rfl, rfl⟩, fun l4 => rfl, fun l => ?_⟩
  have h1 : fcfs (sortByArrival l) = fcfs l := by
    simp [fcfs, sortByArrival_idem, sortByArrival_length]
  have h2 : sjfFull (sortByArrival l) = sjfFull l := by
    simp [sjfFull, sjfFuel, initSjf, sortByArrival_idem, sortByArrival_length]
  exact ⟨h1, h2, h1, h2⟩

/-- Witness for c9_mutation_amended at the input whose order FCFS
changes. -/
theorem c9_witness :
    rrAfter swapInput = swapInput ∧ priAfter testWP = testWP ∧
    fcfs (fcfsAfter swapInput) = fcfs swapInput ∧
    sjfFull (sjfAfter swapInput) = sjfFull swapInput :=
  ⟨(c9_mutation_amended.1 swapInput).1, c9_mutation_amended.2.1 testWP,
   (c9_mutation_amended.2.2 swapInput).1, (c9_mutation_amended.2.2 swapInput).2.2.2⟩

/-! ## C5: timeline tiling of the SJF loop -/

theorem minBurstFirst_mem (a : SjfJob) (as : List SjfJob) : minBurstFirst a as ∈ a :: as := by
  obtain ⟨l1, l2, he, _, _⟩ := minBurstFirst_split as a
  rw [he]
  exact List.mem_append_right l1 (List.mem_cons_self _ l2)

theorem mem_markDone : ∀ (n : String) (w : List SjfJob) (j : SjfJob), j ∈ markDone n w →
    ∃ j0 ∈ w, j.arrival = j0.arrival ∧ j.burst = j0.burst := by
  intro n w
  induction w with
  | nil => intro j hj; exact absurd hj (by simp [markDone] at hj ⊢)
  | cons x xs ih =>
      intro j hj
      by_cases hx : x.name = n ∧ !x.completed
      · rw [show markDone n (x :: xs) = { x with completed := true } :: xs from by
          simp [markDone, hx.1, hx.2]] at hj
        rcases List.mem_cons.mp hj with rfl | hj2
        · exact ⟨x, List.mem_cons_self x xs, rfl, rfl⟩
        · exact ⟨j, List.mem_cons_of_mem x hj2, rfl, rfl⟩
      · rw [show markDone n (x :: xs) = x :: markDone n xs from by
          rcases not_and_or.mp hx with h | h
          · simp [markDone, h]
          · simp only [Bool.not_eq_true'] at h
            simp [markDone, h]] at hj
        rcases List.mem_cons.mp hj with rfl | hj2
        · exact ⟨j, List.mem_cons_self j xs, rfl, rfl⟩
        · obtain ⟨j0, hj0, h1, h2⟩ := ih j hj2
          exact ⟨j0, List.mem_cons_of_mem x hj0, h1, h2⟩

theorem foldl_min_arrival_gt (c : Int) : ∀ (js : List SjfJob) (a : Int), c < a →
    (∀ x ∈ js, c < x.arrival) → c < js.foldl (fun m x => min m x.arrival) a := by
  intro js
  induction js with
  | nil => intro a ha _; exact ha
  | cons x xs ih =>
      intro a ha hall
      rw [List.foldl_cons]
      exact ih (min a x.arrival) (lt_min ha (hall x (List.mem_cons_self x xs)))
        (fun y hy => hall y (List.mem_cons_of_mem x hy))

theorem sjfStep_inv (st : SjfSt)
    (hb : ∀ j ∈ st.working, 1 ≤ j.burst)
    (hc : chainB 0 st.gantt st.time = true) :
    (∀ j ∈ (sjfStep st).working, 1 ≤ j.burst) ∧
    chainB 0 (sjfStep st).gantt (sjfStep st).time = true := by
  match hA : availableJobs st with
  | [] =>
      match hI : incompleteJobs st with
      | [] =>
          constructor
          · intro j hj
            simp only [sjfStep, hA, hI] at hj
            exact hb j hj
          · simp only [sjfStep, hA, hI]
            exact hc
      | j :: js =>
          have hgt : ∀ x ∈ incompleteJobs st, st.time < x.arrival := by
            intro x hx
            have hx2 := List.mem_filter.mp hx
            have hall := List.filter_eq_nil_iff.mp hA
            have h3 := hall x hx2.1
            simp only [Bool.and_eq_true, decide_eq_true_eq, not_and] at h3
            by_contra hle
            push_neg at hle
            exact h3 hle hx2.2
          have hna : st.time < js.foldl (fun m x => min m x.arrival) j.arrival := by
            refine foldl_min_arrival_gt st.time js j.arrival ?_ ?_
            · exact hgt j (hI ▸ List.mem_cons_self j js)
            · intro x hx
              exact hgt x (hI ▸ List.mem_cons_of_mem j hx)
          constructor
          · intro x hx
            simp only [sjfStep, hA, hI] at hx
            exact hb x hx
          · simp only [sjfStep, hA, hI]
            exact chainB_append "IDLE" hc hna
  | a :: as =>
      have hsel : minBurstFirst a as ∈ availableJobs st := by
        rw [hA]
        exact minBurstFirst_mem a as
      have hselw : minBurstFirst a as ∈ st.working := (List.mem_filter.mp hsel).1
      have hburst : 1 ≤ (minBurstFirst a as).burst := hb _ hselw
      constructor
      · intro j hj
        simp only [sjfStep, hA] at hj
        obtain ⟨j0, hj0, _, h2⟩ := mem_markDone (minBurstFirst a as).name st.working j hj
        rw [h2]
        exact hb j0 hj0
      · simp only [sjfStep, hA]
        exact chainB_append _ hc (by linarith)

theorem runSjf_inv : ∀ (fuel : Nat) (st : SjfSt),
    (∀ j ∈ st.working, 1 ≤ j.burst) → chainB 0 st.gantt st.time = true →
    chainB 0 (runSjf fuel st).gantt (runSjf fuel st).time = true := by
  intro fuel
  induction fuel with
  | zero => intro st _ hc; exact hc
  | succ f ih =>
      intro st hb hc
      by_cases h : incompleteJobs st = []
      · simp only [runSjf, if_pos h]
        exact hc
      · simp only [runSjf, if_neg h]
        obtain ⟨hb2, hc2⟩ := sjfStep_inv st hb hc
        exact ih (sjfStep st) hb2 hc2

/-! ## C5: timeline tiling of the Round Robin loop -/

theorem rrStep_inv (q : Int) (hq : 1 ≤ q) (st : RRSt) (h : RRInv st) :
    RRInv (rrStep q st) := by
  obtain ⟨hA, hB, hC, hD, hE⟩ := h
  obtain ⟨taken, rest, hsplit, henq, htk, hhd⟩ :=
    enqueueArrivals_split st.pending st.time st.queue
  have hDsplit : (taken.map Proc3.name ++ rest.map Proc3.name).Nodup := by
    rw [← List.map_append, ← hsplit]
    exact hD
  obtain ⟨ntk, nrs, disjTR⟩ := List.nodup_append.mp hDsplit
  have hq1nodup : (st.queue ++ taken.map Proc3.name).Nodup := by
    rw [List.nodup_append]
    refine ⟨hB, ntk, ?_⟩
    intro n hnq hnt
    obtain ⟨p, hp, rfl⟩ := List.mem_map.mp hnt
    exact (hE p (hsplit ▸ List.mem_append_left rest hp)).1 hnq
  have hq1rem : ∀ n ∈ st.queue ++ taken.map Proc3.name, 1 ≤ (st.details n).remaining := by
    intro n hn
    rcases List.mem_append.mp hn with h1 | h1
    · exact hC n h1
    · obtain ⟨p, hp, rfl⟩ := List.mem_map.mp h1
      have hEp := hE p (hsplit ▸ List.mem_append_left rest hp)
      rw [hEp.2.1]
      exact hEp.2.2
  have hrestq1 : ∀ p ∈ rest, p.name ∉ st.queue ++ taken.map Proc3.name := by
    intro p hp hmem
    rcases List.mem_append.mp hmem with h1 | h1
    · exact (hE p (hsplit ▸ List.mem_append_right taken hp)).1 h1
    · exact disjTR h1 (List.mem_map.mpr ⟨p, hp, rfl⟩)
  have hrestE : ∀ p ∈ rest, st.details p.name = initRRDet p ∧ 1 ≤ p.burst :=
    fun p hp => ⟨(hE p (hsplit ▸ List.mem_append_right taken hp)).2.1,
                 (hE p (hsplit ▸ List.mem_append_right taken hp)).2.2⟩
  match hQ : st.queue ++ taken.map Proc3.name with
  | [] =>
      rcases hhd with hR | ⟨hd, tl, hR, hgt⟩
      · subst hR
        simp only [rrStep, henq, hQ]
        exact ⟨hA, List.nodup_nil, by simp, by simp, by simp⟩
      · subst hR
        simp only [rrStep, henq, hQ]
        refine ⟨chainB_append "IDLE" hA hgt, List.nodup_nil, by simp, nrs, ?_⟩
        intro p hp
        exact ⟨by simp, (hrestE p hp).1, (hrestE p hp).2⟩
  | front :: restQ =>
      have hfrontQ : front ∈ st.queue ++ taken.map Proc3.name := by
        rw [hQ]; exact List.mem_cons_self front restQ
      have hrem : 1 ≤ (st.details front).remaining := hq1rem front hfrontQ
      have hslice : 1 ≤ min q (st.details front).remaining := le_min hq hrem
      have hq1n2 : front ∉ restQ ∧ restQ.Nodup := by
        have := hq1nodup
        rw [hQ] at this
        exact ⟨(List.nodup_cons.mp this).1, (List.nodup_cons.mp this).2⟩
      have hrestQsub : ∀ n ∈ restQ, n ∈ st.queue ++ taken.map Proc3.name := by
        intro n hn
        rw [hQ]
        exact List.mem_cons_of_mem front hn
      obtain ⟨taken2, pen2, hsplit2, henq2, htk2, hhd2⟩ :=
        enqueueArrivals_split rest (st.time + min q (st.details front).remaining) restQ
      have hD2split : (taken2.map Proc3.name ++ pen2.map Proc3.name).Nodup := by
        rw [← List.map_append, ← hsplit2]
        exact nrs
      obtain ⟨ntk2, nps2, disjTP⟩ := List.nodup_append.mp hD2split
      have htk2rest : ∀ p ∈ taken2, p ∈ rest :=
        fun p hp => hsplit2 ▸ List.mem_append_left pen2 hp
      have hpen2rest : ∀ p ∈ pen2, p ∈ rest :=
        fun p hp => hsplit2 ▸ List.mem_append_right taken2 hp
      have hq2nodup : (restQ ++ taken2.map Proc3.name).Nodup := by
        rw [List.nodup_append]
        refine ⟨hq1n2.2, ntk2, ?_⟩
        intro n hnq hnt
        obtain ⟨p, hp, rfl⟩ := List.mem_map.mp hnt
        exact hrestq1 p (htk2rest p hp) (hrestQsub _ hnq)
      have hfrontq2 : front ∉ restQ ++ taken2.map Proc3.name := by
        intro hmem
        rcases List.mem_append.mp hmem with h1 | h1
        · exact hq1n2.1 h1
        · obtain ⟨p, hp, hpn⟩ := List.mem_map.mp h1
          exact hrestq1 p (htk2rest p hp) (hpn ▸ hfrontQ)
      by_cases hc : (st.details front).remaining - min q (st.details front).remaining = 0
      · have hcb : ((st.details front).remaining - min q (st.details front).remaining == 0)
            = true := by simpa using hc
        simp only [rrStep, henq, hQ, henq2, hcb, if_true]
        refine ⟨?_, hq2nodup, ?_, ?_, ?_⟩
        · exact chainB_append front hA (by linarith)
        · intro n hn
          dsimp only at hn ⊢
          rcases List.mem_append.mp hn with h1 | h1
          · rw [Function.update_noteq (fun he => (he ▸ hq1n2.1) h1 : n ≠ front)]
            exact hq1rem n (hrestQsub n h1)
          · obtain ⟨p, hp, rfl⟩ := List.mem_map.mp h1
            have hne : p.name ≠ front := fun he => hrestq1 p (htk2rest p hp) (he ▸ hfrontQ)
            rw [Function.update_noteq hne]
            rw [(hrestE p (htk2rest p hp)).1]
            exact (hrestE p (htk2rest p hp)).2
        · exact nps2
        · intro p hp
          dsimp only at hp
          have hpr := hpen2rest p hp
          have hne : p.name ≠ front := fun he => hrestq1 p hpr (he ▸ hfrontQ)
          refine ⟨?_, ?_, (hrestE p hpr).2⟩
          · intro hmem
            dsimp only at hmem
            rcases List.mem_append.mp hmem with h1 | h1
            · exact hrestq1 p hpr (hrestQsub _ h1)
            · obtain ⟨p2, hp2, hpn⟩ := List.mem_map.mp h1
              exact disjTP (List.mem_map.mpr ⟨p2, hp2, hpn⟩)
                (List.mem_map.mpr ⟨p, hp, rfl⟩)
          · dsimp only
            rw [Function.update_noteq hne]
            exact (hrestE p hpr).1
      · have hcb : ((st.details front).remaining - min q (st.details front).remaining == 0)
            = false := by simpa using hc
        simp only [rrStep, henq, hQ, henq2, hcb, if_false]
        have hrem2 : 1 ≤ (st.details front).remaining - min q (st.details front).remaining := by
          have h0 : 0 ≤ (st.details front).remaining - min q (st.details front).remaining := by
            have := min_le_right q (st.details front).remaining
            linarith
          omega
        refine ⟨?_, ?_, ?_, ?_, ?_⟩
        · exact chainB_append front hA (by linarith)
        · show ((restQ ++ List.map Proc3.name taken2) ++ [front]).Nodup
          rw [List.nodup_append]
          refine ⟨hq2nodup, List.nodup_singleton front, ?_⟩
          intro n hn1 hn2
          rw [List.mem_singleton.mp hn2] at hn1
          exact hfrontq2 hn1
        · intro n hn
          dsimp only at hn ⊢
          rcases List.mem_append.mp hn with h1 | h1
          · rcases List.mem_append.mp h1 with h2 | h2
            · rw [Function.update_noteq (fun he => (he ▸ hq1n2.1) h2 : n ≠ front)]
              exact hq1rem n (hrestQsub n h2)
            · obtain ⟨p, hp, rfl⟩ := List.mem_map.mp h2
              have hne : p.name ≠ front := fun he => hrestq1 p (htk2rest p hp) (he ▸ hfrontQ)
              rw [Function.update_noteq hne]
              rw [(hrestE p (htk2rest p hp)).1]
              exact (hrestE p (htk2rest p hp)).2
          · rw [List.mem_singleton.mp h1, Function.update_same]
            exact hrem2
        · exact nps2
        · intro p hp
          dsimp only at hp
          have hpr := hpen2rest p hp
          have hne : p.name ≠ front := fun he => hrestq1 p hpr (he ▸ hfrontQ)
          refine ⟨?_, ?_, (hrestE p hpr).2⟩
          · intro hmem
            dsimp only at hmem
            rcases List.mem_append.mp hmem with h1 | h1
            · rcases List.mem_append.mp h1 with h2 | h2
              · exact hrestq1 p hpr (hrestQsub _ h2)
              · obtain ⟨p2, hp2, hpn⟩ := List.mem_map.mp h2
                exact disjTP (List.mem_map.mpr ⟨p2, hp2, hpn⟩)
                  (List.mem_map.mpr ⟨p, hp, rfl⟩)
            · exact hne (List.mem_singleton.mp h1)
          · dsimp only
            rw [Function.update_noteq hne]
            exact (hrestE p hpr).1

theorem runRR_inv (q : Int) (hq : 1 ≤ q) : ∀ (fuel : Nat) (st : RRSt),
    RRInv st → RRInv (runRR q fuel st) := by
  intro fuel
  induction fuel with
  | zero => intro st h; exact h
  | succ f ih =>
      intro st h
      by_cases hg : st.pending = [] ∧ st.queue = []
      · simp only [runRR, if_pos hg]
        exact h
      · simp only [runRR, if_neg hg]
        exact ih (rrStep q st) (rrStep_inv q hq st h)

theorem initRR_inv (l : List Proc3) (hv : Valid3 l) : RRInv (initRR l) := by
  refine ⟨rfl, List.nodup_nil, by simp [initRR], ?_, ?_⟩
  · show ((sortByArrival l).map Proc3.name).Nodup
    exact ((List.perm_insertionSort arrLE l).map Proc3.name).nodup_iff.mpr hv.2
  · intro p hp
    have hpl : p ∈ l := (List.perm_insertionSort arrLE l).mem_iff.mp hp
    refine ⟨by simp [initRR], ?_, (hv.1 p hpl).2⟩
    show buildRRDet l p.name = initRRDet p
    exact buildRRDet_of_nodup l hv.2 p hpl

/-! ## C5: timeline tiling of the priority loop -/

theorem selectPri_mem (st : PriSt) : ∀ (as : List String) (a : String),
    selectPri st a as ∈ a :: as := by
  intro as
  induction as with
  | nil => intro a; exact List.mem_cons_self a []
  | cons x xs ih =>
      intro a
      have hstep : selectPri st a (x :: xs) =
          selectPri st (if (st.details x).priority < (st.details a).priority then x else a)
            xs := rfl
      rw [hstep]
      rcases List.mem_cons.mp
          (ih (if (st.details x).priority < (st.details a).priority then x else a)) with
        he | hm
      · rw [he]
        split_ifs
        · exact List.mem_cons_of_mem a (List.mem_cons_self x xs)
        · exact List.mem_cons_self a _
      · exact List.mem_cons_of_mem a (List.mem_cons_of_mem x hm)

theorem foldl_max_arrival_le : ∀ (ps : List Proc4) (m : Int),
    m ≤ ps.foldl (fun acc x => max acc x.arrival) m ∧
    ∀ x ∈ ps, x.arrival ≤ ps.foldl (fun acc x => max acc x.arrival) m := by
  intro ps
  induction ps with
  | nil => intro m; exact ⟨le_refl m, by simp⟩
  | cons x xs ih =>
      intro m
      rw [List.foldl_cons]
      obtain ⟨h1, h2⟩ := ih (max m x.arrival)
      refine ⟨le_trans (le_max_left m x.arrival) h1, ?_⟩
      intro y hy
      rcases List.mem_cons.mp hy with rfl | hy2
      · exact le_trans (le_max_right m y.arrival) h1
      · exact h2 y hy2

theorem le_maxArrival : ∀ (l : List Proc4), ∀ p ∈ l, p.arrival ≤ maxArrival l := by
  intro l
  cases l with
  | nil => intro p hp; exact absurd hp (List.not_mem_nil p)
  | cons a ps =>
      intro p hp
      rcases List.mem_cons.mp hp with rfl | hp2
      · exact (foldl_max_arrival_le ps p.arrival).1
      · exact (foldl_max_arrival_le ps a.arrival).2 p hp2

theorem foldl_min_int_gt (c : Int) : ∀ (xs : List Int) (a : Int), c < a →
    (∀ x ∈ xs, c < x) → c < xs.foldl min a := by
  intro xs
  induction xs with
  | nil => intro a ha _; exact ha
  | cons x xs ih =>
      intro a ha hall
      rw [List.foldl_cons]
      exact ih (min a x) (lt_min ha (hall x (List.mem_cons_self x xs)))
        (fun y hy => hall y (List.mem_cons_of_mem x hy))

theorem nextArrAfter_gt (st : PriSt) (na : Int) (h : nextArrAfter st = some na) :
    st.time < na := by
  have hall : ∀ v ∈ (st.ks.filter (fun m => decide (st.time < (st.details m).arrival))).map
      (fun m => (st.details m).arrival), st.time < v := by
    intro v hv
    obtain ⟨m, hm, rfl⟩ := List.mem_map.mp hv
    have := (List.mem_filter.mp hm).2
    simpa using this
  unfold nextArrAfter at h
  match hF : (st.ks.filter (fun m => decide (st.time < (st.details m).arrival))).map
      (fun m => (st.details m).arrival) with
  | [] => rw [hF] at h; exact absurd h (by simp)
  | x :: xs =>
      rw [hF] at h
      rw [Option.some.injEq] at h
      rw [← h]
      rw [hF] at hall
      exact foldl_min_int_gt st.time xs x (hall x (List.mem_cons_self x xs))
        (fun y hy => hall y (List.mem_cons_of_mem x hy))

theorem avail_empty_not_arrived (st : PriSt) (hAv : availNames st = []) (n : String)
    (hn : n ∈ st.ks) (hc : (st.details n).completed = false) :
    st.time < (st.details n).arrival := by
  have hall := List.filter_eq_nil_iff.mp hAv
  have h1 := hall n hn
  simp only [Bool.and_eq_true, decide_eq_true_eq, not_and] at h1
  by_contra hle
  push_neg at hle
  have h2 := h1 hle
  rw [hc] at h2
  exact h2 rfl

theorem update_forall_arrival (f : String → PriDet) (s : String) (v : PriDet)
    (ks : List String) (mx : Int) (hv : v.arrival = (f s).arrival)
    (h : ∀ n ∈ ks, (f n).arrival ≤ mx) :
    ∀ n ∈ ks, ((Function.update f s v) n).arrival ≤ mx := by
  intro n hn
  by_cases hns : n = s
  · rw [hns, Function.update_same, hv]
    exact h s (hns ▸ hn)
  · rw [Function.update_noteq hns]
    exact h n hn

theorem update_forall_remaining (f : String → PriDet) (s : String) (v : PriDet)
    (ks : List String) (hv : v.completed = false → 1 ≤ v.remaining)
    (h : ∀ n ∈ ks, (f n).completed = false → 1 ≤ (f n).remaining) :
    ∀ n ∈ ks, ((Function.update f s v) n).completed = false →
      1 ≤ ((Function.update f s v) n).remaining := by
  intro n hn hc
  by_cases hns : n = s
  · rw [hns, Function.update_same] at hc ⊢
    exact hv hc
  · rw [Function.update_noteq hns] at hc ⊢
    exact h n hn hc

theorem priStep_inv (l : List Proc4) (st st2 : PriSt) (hinv : PriInv l st)
    (hcount : 0 < countIncomplete st) (hstep : priStep st = some st2) : PriInv l st2 := by
  obtain ⟨hA, hks, hmax, hrem, harr⟩ := hinv
  match hAv : availNames st with
  | a :: as =>
      simp only [priStep, hAv, Option.some.injEq] at hstep
      subst hstep
      have hsel : selectPri st a as ∈ availNames st := by
        rw [hAv]
        exact selectPri_mem st as a
      have hself := List.mem_filter.mp hsel
      have hselks : selectPri st a as ∈ st.ks := hself.1
      have hselcomp : (st.details (selectPri st a as)).completed = false := by
        have h2 := hself.2
        simp only [Bool.and_eq_true, decide_eq_true_eq, Bool.not_eq_true'] at h2
        exact h2.2
      have hselrem : 1 ≤ (st.details (selectPri st a as)).remaining :=
        hrem _ hselks hselcomp
      have hev_le : nextEventTime st (selectPri st a as) ≤
          st.time + (st.details (selectPri st a as)).remaining :=
        foldMinIf_le_init _ _ st.ks _
      have hev_gt : st.time < nextEventTime st (selectPri st a as) := by
        have heq : nextEventTime st (selectPri st a as) = foldMinIf
            (fun n => decide (st.time < (st.details n).arrival) &&
              decide ((st.details n).priority < (st.details (selectPri st a as)).priority))
            (fun n => (st.details n).arrival) st.ks
            (st.time + (st.details (selectPri st a as)).remaining) := rfl
        rcases foldMinIf_cases
            (fun n => decide (st.time < (st.details n).arrival) &&
              decide ((st.details n).priority < (st.details (selectPri st a as)).priority))
            (fun n => (st.details n).arrival) st.ks
            (st.time + (st.details (selectPri st a as)).remaining) with h | ⟨n, _, hp, he⟩
        · rw [heq, h]; linarith
        · rw [heq, he]
          simp only [Bool.and_eq_true, decide_eq_true_eq] at hp
          exact hp.1
      refine ⟨chainB_append _ hA hev_gt, hks, hmax, ?_, ?_⟩
      · refine update_forall_remaining st.details (selectPri st a as) _ st.ks ?_ hrem
        intro hcompl
        by_cases hc : (st.details (selectPri st a as)).remaining -
            (nextEventTime st (selectPri st a as) - st.time) = 0
        · have hcb : ((st.details (selectPri st a as)).remaining -
              (nextEventTime st (selectPri st a as) - st.time) == 0) = true := by
            simpa using hc
          rw [if_pos hcb] at hcompl
          exact absurd hcompl (by simp)
        · have hcb : ¬((st.details (selectPri st a as)).remaining -
              (nextEventTime st (selectPri st a as) - st.time) == 0) = true := by
            simpa using hc
          rw [if_neg hcb]
          show 1 ≤ (st.details (selectPri st a as)).remaining -
            (nextEventTime st (selectPri st a as) - st.time)
          omega
      · refine update_forall_arrival st.details (selectPri st a as) _ st.ks st.maxArr ?_ harr
        split_ifs <;> rfl
  | [] =>
      obtain ⟨n, hn⟩ := List.exists_mem_of_length_pos hcount
      have hn2 := List.mem_filter.mp hn
      have hncomp : (st.details n).completed = false := by
        have := hn2.2
        simpa using this
      have hnarr : st.time < (st.details n).arrival :=
        avail_empty_not_arrived st hAv n hn2.1 hncomp
      have hT : st.time < st.maxArr := lt_of_lt_of_le hnarr (harr n hn2.1)
      simp only [priStep, hAv, if_pos hT] at hstep
      match hN : nextArrAfter st with
      | none => rw [hN] at hstep; exact absurd hstep (by simp)
      | some na =>
          rw [hN, Option.some.injEq] at hstep
          subst hstep
          exact ⟨chainB_append "IDLE" hA (nextArrAfter_gt st na hN), hks, hmax, hrem, harr⟩

theorem runPri_inv (l : List Proc4) : ∀ (fuel : Nat) (st : PriSt), PriInv l st →
    ∃ st2, runPri fuel st = some st2 ∧ PriInv l st2 := by
  intro fuel
  induction fuel with
  | zero => intro st h; exact ⟨st, rfl, h⟩
  | succ f ih =>
      intro st h
      by_cases hg : st.time < st.maxTime ∧ 0 < countIncomplete st
      · obtain ⟨st1, h1⟩ := Option.isSome_iff_exists.mp (priStep_isSome st hg.2)
        have hinv1 := priStep_inv l st st1 h hg.2 h1
        obtain ⟨st2, h2, hinv2⟩ := ih st1 hinv1
        refine ⟨st2, ?_, hinv2⟩
        simp only [runPri, if_pos hg, h1]
        exact h2
      · exact ⟨st, by simp [runPri, hg], h⟩

theorem initPri_inv (l : List Proc4) (hv : Valid4 l) : PriInv l (initPri l) := by
  refine ⟨rfl, rfl, rfl, ?_, ?_⟩
  · intro n hn _
    have hn2 : n ∈ l.map Proc4.name := ((keysOf4_spec l).2 n).mp hn
    obtain ⟨p, hp, _, hb⟩ := buildPriDet_mem l n hn2
    show 1 ≤ (buildPriDet l n).remaining
    rw [hb]
    exact (hv.1 p hp).2
  · intro n hn
    have hn2 : n ∈ l.map Proc4.name := ((keysOf4_spec l).2 n).mp hn
    obtain ⟨p, hp, _, hb⟩ := buildPriDet_mem l n hn2
    show (buildPriDet l n).arrival ≤ maxArrival l
    rw [hb]
    exact le_maxArrival l p hp

/-- C5 corrected.  For SJF, Round Robin (with a positive quantum) and
the priority engine, on every valid input the emitted timeline is, in
emission order, a chain of non-empty consecutive intervals from 0 to
the final clock value: every entry has start strictly below end, the
entries are already sorted by start, and they tile the interval from 0
to the last end with no gaps and no overlaps, idle intervals being
covered by explicit IDLE entries.  This holds after any number of loop
iterations, so in particular for the completed run.  (FCFS, by
contrast, emits no IDLE entries: see the counterexample.) -/
theorem c5_tiling_amended (l : List Proc3) (l4 : List Proc4) (q : Int)
    (f1 f2 f3 : Nat) (hv3 : Valid3 l) (hv4 : Valid4 l4) (hq : 1 ≤ q) :
    chainB 0 (runSjf f1 (initSjf l)).gantt (runSjf f1 (initSjf l)).time = true ∧
    chainB 0 (runRR q f2 (initRR l)).gantt (runRR q f2 (initRR l)).time = true ∧
    ∃ st, runPri f3 (initPri l4) = some st ∧ chainB 0 st.gantt st.time = true := by
  refine ⟨?_, ?_, ?_⟩
  · refine runSjf_inv f1 (initSjf l) ?_ rfl
    intro j hj
    obtain ⟨p, hp, rfl⟩ := List.mem_map.mp hj
    exact (hv3.1 p ((List.perm_insertionSort arrLE l).mem_iff.mp hp)).2
  · exact (runRR_inv q hq f2 (initRR l) (initRR_inv l hv3)).1
  · obtain ⟨st, h1, hinv⟩ := runPri_inv l4 f3 (initPri l4) (initPri_inv l4 hv4)
    exact ⟨st, h1, hinv.1⟩

/-- Witness for c5_tiling_amended at the concrete test inputs with
quantum 2 and fuel 20. -/
theorem c5_witness :
    chainB 0 (runSjf 20 (initSjf testNP)).gantt (runSjf 20 (initSjf testNP)).time = true ∧
    chainB 0 (runRR 2 20 (initRR testNP)).gantt (runRR 2 20 (initRR testNP)).time = true ∧
    ∃ st, runPri 20 (initPri testWP) = some st ∧ chainB 0 st.gantt st.time = true :=
  c5_tiling_amended testNP testWP 2 20 20 20 (by decide) (by decide) (by decide)

end Sched
